import Mathlib

/-!
# Verification of the akamai-operator reconciliation core

This file gives a shallow embedding, in Lean 4, of the core decision logic of a
Kubernetes controller that reconciles a declarative CDN property resource
against the Akamai Property Manager API, and proves (or refutes) the frozen
specification claims about it.

Embedded components (each translated from the corresponding Go function):

* `CompareHostnames` — order-insensitive hostname-set comparison
  (`pkg/akamai/hostnames.go`).
* `updateStatus` — the change-suppressing status writer
  (controllers, status-writer file).
* `handleDeletion` — finalizer-guarded remote deletion (reconciler).
* `UpdatePropertyRules` — the rule-tree write with its one-shot
  validation-off retry (`pkg/akamai`, rules client).
* The rule normaliser and differ (`cleanRulesForComparison`,
  `normalizeOptionsMap`, `normalizeMapForComparison`, `compareRulesDeep`,
  `rulesNeedUpdate`) over a JSON model.
* `updateRulesIfNeeded` — the lazy-fork rules update, together with the
  remote facade operation `UpdateProperty` / `IsVersionPublished`.
* `handleActivation` — the activation planner.

Remote calls are modelled by explicit oracle parameters and every function
returns, besides its result, the trace of remote calls it issued, so frame
claims ("performs no write") are statements about that trace.
-/

namespace AkamaiOperator

/-! ## Hostname comparison (pkg/akamai: CompareHostnames) -/

/-- A hostname entry: logical identity is `cnameFrom`.  In the Go source the
desired side is `v1alpha1.Hostname` and the current side `akamai.Hostname`;
both carry exactly these three string fields, so one Lean structure serves
for both. -/
structure Hostname where
  cnameFrom : String
  cnameTo : String
  certProvisioningType : String
deriving DecidableEq, Repr

/-- The map `currentMap[h.CNAMEFrom] = h` built by `CompareHostnames`: Go map
insertion is last-wins, so looking a key up is `find?` over the reversed
list. -/
def lookupHostname (current : List Hostname) (key : String) : Option Hostname :=
  current.reverse.find? (fun h => h.cnameFrom == key)

/-- Whether one desired entry differs from the current map: absent key, a
different `cnameTo`, or a non-empty desired cert type that disagrees.  This is
the body of the `for _, dh := range desired` loop. -/
def hostnameEntryDiffers (current : List Hostname) (dh : Hostname) : Bool :=
  match lookupHostname current dh.cnameFrom with
  | none => true
  | some ch =>
    if dh.cnameTo ≠ ch.cnameTo then true
    else if dh.certProvisioningType ≠ "" && dh.certProvisioningType ≠ ch.certProvisioningType then
      true
    else false

/-- `CompareHostnames` (Go): returns `true` iff the two hostname lists differ.
A length mismatch differs at once; otherwise every desired entry is checked
against the `cnameFrom`-keyed map of the current entries. -/
def CompareHostnames (desired current : List Hostname) : Bool :=
  if desired.length ≠ current.length then true
  else desired.any (hostnameEntryDiffers current)

/-! Spec-side predicates for claim C4, written from the specification text:
"A and B have the same set of `cnameFrom` keys and per-key
`(cnameTo, certProvisioningType)` agrees (empty desired cert type matches
any)". -/

/-- The two lists expose the same set of `cnameFrom` keys. -/
def sameCnameFromKeys (desired current : List Hostname) : Prop :=
  (∀ d ∈ desired, ∃ c ∈ current, c.cnameFrom = d.cnameFrom) ∧
  (∀ c ∈ current, ∃ d ∈ desired, d.cnameFrom = c.cnameFrom)

/-- Per-key agreement: equal `cnameTo`, and cert types agree unless the desired
one is empty. -/
def agreePerKey (desired current : List Hostname) : Prop :=
  ∀ d ∈ desired, ∀ c ∈ current, d.cnameFrom = c.cnameFrom →
    d.cnameTo = c.cnameTo ∧
    (d.certProvisioningType = "" ∨ d.certProvisioningType = c.certProvisioningType)

/-- The claim's characterisation of `CompareHostnames _ _ = false`. -/
def specHostnamesEqual (desired current : List Hostname) : Prop :=
  sameCnameFromKeys desired current ∧ agreePerKey desired current

instance (desired current : List Hostname) : Decidable (sameCnameFromKeys desired current) := by
  unfold sameCnameFromKeys; infer_instance

instance (desired current : List Hostname) : Decidable (agreePerKey desired current) := by
  unfold agreePerKey; infer_instance

instance (desired current : List Hostname) : Decidable (specHostnamesEqual desired current) := by
  unfold specHostnamesEqual; infer_instance

/-- `lookupHostname` finds exactly the entries with the requested key. -/
theorem lookupHostname_eq_some_iff (current : List Hostname)
    (hc : (current.map Hostname.cnameFrom).Nodup) (k : String) (h : Hostname) :
    lookupHostname current k = some h ↔ h ∈ current ∧ h.cnameFrom = k := by
  constructor
  · intro hf
    unfold lookupHostname at hf
    have hmem : h ∈ current.reverse := List.mem_of_find?_eq_some hf
    have hpred := List.find?_some hf
    exact ⟨List.mem_reverse.mp hmem, by simpa using hpred⟩
  · rintro ⟨hmem, hkey⟩
    cases hfind : lookupHostname current k with
    | none =>
      exfalso
      unfold lookupHostname at hfind
      have := List.find?_eq_none.mp hfind h (List.mem_reverse.mpr hmem)
      simp [hkey] at this
    | some h' =>
      have hfind' := hfind
      unfold lookupHostname at hfind'
      have hmem' : h' ∈ current := List.mem_reverse.mp (List.mem_of_find?_eq_some hfind')
      have hpred' := List.find?_some hfind'
      have hkey' : h'.cnameFrom = k := by simpa using hpred'
      have : h' = h :=
        List.inj_on_of_nodup_map hc hmem' hmem (by rw [hkey', hkey])
      rw [this]

/-- `lookupHostname` fails exactly when no entry carries the key. -/
theorem lookupHostname_eq_none_iff (current : List Hostname) (k : String) :
    lookupHostname current k = none ↔ ∀ c ∈ current, c.cnameFrom ≠ k := by
  unfold lookupHostname
  rw [List.find?_eq_none]
  constructor
  · intro hnone c hmem
    have := hnone c (List.mem_reverse.mpr hmem)
    simpa using this
  · intro hall c hmem
    have := hall c (List.mem_reverse.mp hmem)
    simpa using this

/-- A single desired entry passes the loop body iff its key resolves in the
map with agreeing fields. -/
theorem hostnameEntryDiffers_eq_false_iff (current : List Hostname) (dh : Hostname) :
    hostnameEntryDiffers current dh = false ↔
      ∃ ch, lookupHostname current dh.cnameFrom = some ch ∧ dh.cnameTo = ch.cnameTo ∧
        (dh.certProvisioningType = "" ∨ dh.certProvisioningType = ch.certProvisioningType) := by
  unfold hostnameEntryDiffers
  cases hl : lookupHostname current dh.cnameFrom with
  | none => simp
  | some ch =>
    constructor
    · intro hfalse
      refine ⟨ch, rfl, ?_⟩
      by_cases hto : dh.cnameTo = ch.cnameTo
      · refine ⟨hto, ?_⟩
        by_cases hcert : dh.certProvisioningType = ""
        · exact Or.inl hcert
        · right
          by_contra hne
          simp [hto, hcert, hne] at hfalse
      · simp [hto] at hfalse
    · rintro ⟨ch', hch', hto, hcert⟩
      have hcheq : ch' = ch := by
        have := hch'
        rw [Option.some.injEq] at this
        exact this.symm
      subst hcheq
      rcases hcert with hc | hc <;> simp [hto, hc]

/-- `List.any` only depends on the members. -/
theorem any_congr_of_perm {α : Type} {l l' : List α} (p : α → Bool) (h : l.Perm l') :
    l.any p = l'.any p := by
  cases h1 : l.any p <;> cases h2 : l'.any p
  · rfl
  · rw [List.any_eq_false] at h1
    rw [List.any_eq_true] at h2
    obtain ⟨x, hx, hp⟩ := h2
    exact absurd hp (h1 x (h.mem_iff.mpr hx))
  · rw [List.any_eq_false] at h2
    rw [List.any_eq_true] at h1
    obtain ⟨x, hx, hp⟩ := h1
    exact absurd hp (h2 x (h.mem_iff.mp hx))
  · rfl

/-- Under distinct keys, `lookupHostname` only depends on the set of entries. -/
theorem lookupHostname_congr_of_perm {current current' : List Hostname}
    (hc : (current.map Hostname.cnameFrom).Nodup) (hp : current'.Perm current) (k : String) :
    lookupHostname current' k = lookupHostname current k := by
  have hc' : (current'.map Hostname.cnameFrom).Nodup :=
    ((hp.map Hostname.cnameFrom).nodup_iff).mpr hc
  cases hl : lookupHostname current k with
  | none =>
    rw [lookupHostname_eq_none_iff] at hl ⊢
    intro c hmem
    exact hl c (hp.mem_iff.mp hmem)
  | some h =>
    rw [lookupHostname_eq_some_iff current hc] at hl
    rw [lookupHostname_eq_some_iff current' hc']
    exact ⟨hp.mem_iff.mpr hl.1, hl.2⟩

/-- C4, as the code has it.  For hostname lists whose `cnameFrom` keys are
distinct (the data model requires `cnameFrom` to be unique per property),
`CompareHostnames` returns `false` exactly when the two lists carry the same
key set with per-key agreement, and its result is invariant under reordering
either list.  Without the distinctness assumption the equivalence fails, see
the counterexample. -/
theorem CompareHostnames_spec (desired current : List Hostname)
    (hd : (desired.map Hostname.cnameFrom).Nodup)
    (hc : (current.map Hostname.cnameFrom).Nodup) :
    (CompareHostnames desired current = false ↔ specHostnamesEqual desired current) ∧
    (∀ desired' current', desired'.Perm desired → current'.Perm current →
      CompareHostnames desired' current' = CompareHostnames desired current) := by
  constructor
  · constructor
    · intro hfalse
      unfold CompareHostnames at hfalse
      by_cases hlen : desired.length = current.length
      · rw [if_neg (by simp [hlen])] at hfalse
        have hall : ∀ dh ∈ desired, hostnameEntryDiffers current dh = false := by
          intro dh hmem
          exact Bool.eq_false_iff.mpr (List.any_eq_false.mp hfalse dh hmem)
        have hkey1 : ∀ d ∈ desired, ∃ c ∈ current, c.cnameFrom = d.cnameFrom := by
          intro d hdm
          obtain ⟨ch, hch, -, -⟩ := (hostnameEntryDiffers_eq_false_iff current d).mp (hall d hdm)
          obtain ⟨hmem, hkey⟩ := (lookupHostname_eq_some_iff current hc _ ch).mp hch
          exact ⟨ch, hmem, hkey⟩
        have hsub : (desired.map Hostname.cnameFrom) ⊆ (current.map Hostname.cnameFrom) := by
          intro k hk
          obtain ⟨d, hdm, hdk⟩ := List.mem_map.mp hk
          obtain ⟨c, hcm, hck⟩ := hkey1 d hdm
          exact List.mem_map.mpr ⟨c, hcm, by rw [hck, hdk]⟩
        have hperm : (desired.map Hostname.cnameFrom).Perm (current.map Hostname.cnameFrom) := by
          refine (List.subperm_of_subset hd hsub).perm_of_length_le ?_
          simp [hlen]
        refine ⟨⟨hkey1, ?_⟩, ?_⟩
        · intro c hcm
          have : c.cnameFrom ∈ desired.map Hostname.cnameFrom :=
            hperm.mem_iff.mpr (List.mem_map.mpr ⟨c, hcm, rfl⟩)
          obtain ⟨d, hdm, hdk⟩ := List.mem_map.mp this
          exact ⟨d, hdm, hdk⟩
        · intro d hdm c hcm hkeq
          obtain ⟨ch, hch, hto, hcert⟩ :=
            (hostnameEntryDiffers_eq_false_iff current d).mp (hall d hdm)
          obtain ⟨hchm, hchk⟩ := (lookupHostname_eq_some_iff current hc _ ch).mp hch
          have : ch = c := List.inj_on_of_nodup_map hc hchm hcm (by rw [hchk, hkeq])
          subst this
          exact ⟨hto, hcert⟩
      · exfalso
        rw [if_pos (by simp [hlen])] at hfalse
        simp at hfalse
    · rintro ⟨⟨hk1, hk2⟩, hagree⟩
      have hsub1 : (desired.map Hostname.cnameFrom) ⊆ (current.map Hostname.cnameFrom) := by
        intro k hk
        obtain ⟨d, hdm, hdk⟩ := List.mem_map.mp hk
        obtain ⟨c, hcm, hck⟩ := hk1 d hdm
        exact List.mem_map.mpr ⟨c, hcm, by rw [hck, hdk]⟩
      have hsub2 : (current.map Hostname.cnameFrom) ⊆ (desired.map Hostname.cnameFrom) := by
        intro k hk
        obtain ⟨c, hcm, hck⟩ := List.mem_map.mp hk
        obtain ⟨d, hdm, hdk⟩ := hk2 c hcm
        exact List.mem_map.mpr ⟨d, hdm, by rw [hdk, hck]⟩
      have hperm : (desired.map Hostname.cnameFrom).Perm (current.map Hostname.cnameFrom) :=
        (List.subperm_of_subset hd hsub1).antisymm (List.subperm_of_subset hc hsub2)
      have hlen : desired.length = current.length := by
        have := hperm.length_eq
        simpa using this
      unfold CompareHostnames
      rw [if_neg (by simp [hlen])]
      rw [List.any_eq_false]
      intro d hdm
      obtain ⟨c, hcm, hck⟩ := hk1 d hdm
      cases hl : lookupHostname current d.cnameFrom with
      | none =>
        exact absurd hck ((lookupHostname_eq_none_iff current _).mp hl c hcm)
      | some ch =>
        obtain ⟨hchm, hchk⟩ := (lookupHostname_eq_some_iff current hc _ ch).mp hl
        obtain ⟨hto, hcert⟩ := hagree d hdm ch hchm hchk.symm
        intro habs
        have := (hostnameEntryDiffers_eq_false_iff current d).mpr ⟨ch, hl, hto, hcert⟩
        simp [this] at habs
  · intro desired' current' hdp hcp
    unfold CompareHostnames
    have hlen1 : desired'.length = desired.length := hdp.length_eq
    have hlen2 : current'.length = current.length := hcp.length_eq
    rw [hlen1, hlen2]
    by_cases hlen : desired.length = current.length
    · rw [if_neg (by simp [hlen]), if_neg (by simp [hlen])]
      have hpt : ∀ dh, hostnameEntryDiffers current' dh = hostnameEntryDiffers current dh := by
        intro dh
        unfold hostnameEntryDiffers
        rw [lookupHostname_congr_of_perm hc hcp]
      have : desired'.any (hostnameEntryDiffers current') =
          desired'.any (hostnameEntryDiffers current) := by
        cases h1 : desired'.any (hostnameEntryDiffers current') <;>
          cases h2 : desired'.any (hostnameEntryDiffers current)
        · rfl
        · rw [List.any_eq_false] at h1
          rw [List.any_eq_true] at h2
          obtain ⟨x, hx, hp⟩ := h2
          rw [← hpt x] at hp
          exact absurd hp (h1 x hx)
        · rw [List.any_eq_false] at h2
          rw [List.any_eq_true] at h1
          obtain ⟨x, hx, hp⟩ := h1
          rw [hpt x] at hp
          exact absurd hp (h2 x hx)
        · rfl
      rw [this]
      exact any_congr_of_perm _ hdp
    · rw [if_pos (by simp [hlen]), if_pos (by simp [hlen])]

/-- C4 witness: a concrete instantiation of `CompareHostnames_spec` with
distinct keys on both sides. -/
theorem CompareHostnames_spec_witness :
    ((([⟨"www.example.com", "e.net", ""⟩] : List Hostname).map Hostname.cnameFrom).Nodup ∧
     (([⟨"www.example.com", "e.net", "CPS"⟩] : List Hostname).map Hostname.cnameFrom).Nodup) ∧
    (CompareHostnames [⟨"www.example.com", "e.net", ""⟩] [⟨"www.example.com", "e.net", "CPS"⟩]
        = false ↔
      specHostnamesEqual [⟨"www.example.com", "e.net", ""⟩]
        [⟨"www.example.com", "e.net", "CPS"⟩]) := by
  refine ⟨⟨by decide, by decide⟩, ?_⟩
  exact (CompareHostnames_spec _ _ (by decide) (by decide)).1

/-- C4 counterexample: with a duplicated `cnameFrom` on the desired side the
claimed equivalence fails — the code reports "no difference" although the key
sets differ (`"c"` is only current). -/
theorem CompareHostnames_claim_counterexample :
    CompareHostnames [⟨"a", "x", ""⟩, ⟨"a", "x", ""⟩] [⟨"a", "x", ""⟩, ⟨"c", "y", ""⟩] = false ∧
    ¬ specHostnamesEqual [⟨"a", "x", ""⟩, ⟨"a", "x", ""⟩] [⟨"a", "x", ""⟩, ⟨"c", "y", ""⟩] := by
  constructor
  · rfl
  · decide

/-! ## Resource model constants (controllers) -/

def FinalizerName : String := "akamai.com/finalizer"

def ConditionTypeReady : String := "Ready"

def PhaseCreating : String := "Creating"

def PhaseReady : String := "Ready"

def PhaseUpdating : String := "Updating"

def PhaseActivating : String := "Activating"

def PhaseError : String := "Error"

def PhaseDeleting : String := "Deleting"

/-! ## Status model

`metav1.Condition` is reduced to the fields the controller reads and writes;
`Status` (metav1.ConditionTrue/False) becomes a `Bool` and timestamps become
abstract `Nat` instants.  Version numbers are Go `int`; they are modelled as
`Int` (the controller never comes near 64-bit overflow). -/

structure Condition where
  type : String
  status : Bool
  lastTransitionTime : Nat
  reason : String
  message : String
deriving DecidableEq, Repr

structure AkamaiPropertyStatus where
  propertyID : String := ""
  latestVersion : Int := 0
  stagingVersion : Int := 0
  productionVersion : Int := 0
  stagingActivationID : String := ""
  productionActivationID : String := ""
  stagingActivationStatus : String := ""
  productionActivationStatus : String := ""
  stagingActivationNote : String := ""
  productionActivationNote : String := ""
  phase : String := ""
  lastUpdated : Option Nat := none
  conditions : List Condition := []
deriving DecidableEq, Repr

/-- Look a condition up by type (`Conditions` is keyed by `Type`). -/
def findCondition (conds : List Condition) (t : String) : Option Condition :=
  conds.find? (fun c => c.type == t)

/-! ## Status writer (controllers: updateStatus, the change-suppressing merge)

The Go function re-reads the latest object from the cluster, merges, and
writes through the status subresource inside a conflict-retry loop.  The
embedding takes the freshly read `latest` status and the in-memory status as
inputs and returns the status that would be written together with whether the
write is issued at all; the conflict-retry loop around the write is the
cluster's concern and is not modelled. -/

/-- The preserve-existing-fields merge of `updateStatus`: any observed
non-zero in-memory value fills a still-empty field of the freshly read
status.  The Go source is a chain of eight `if` statements, each assigning a
distinct field, so the chain is written here field-wise. -/
def mergePreserve (latest inMem : AkamaiPropertyStatus) : AkamaiPropertyStatus :=
  { latest with
    propertyID := if latest.propertyID = "" ∧ inMem.propertyID ≠ "" then
      inMem.propertyID else latest.propertyID
    latestVersion := if latest.latestVersion = 0 ∧ inMem.latestVersion ≠ 0 then
      inMem.latestVersion else latest.latestVersion
    stagingVersion := if latest.stagingVersion = 0 ∧ inMem.stagingVersion ≠ 0 then
      inMem.stagingVersion else latest.stagingVersion
    productionVersion := if latest.productionVersion = 0 ∧ inMem.productionVersion ≠ 0 then
      inMem.productionVersion else latest.productionVersion
    stagingActivationID := if latest.stagingActivationID = "" ∧ inMem.stagingActivationID ≠ "" then
      inMem.stagingActivationID else latest.stagingActivationID
    productionActivationID :=
      if latest.productionActivationID = "" ∧ inMem.productionActivationID ≠ "" then
        inMem.productionActivationID else latest.productionActivationID
    stagingActivationStatus :=
      if latest.stagingActivationStatus = "" ∧ inMem.stagingActivationStatus ≠ "" then
        inMem.stagingActivationStatus else latest.stagingActivationStatus
    productionActivationStatus :=
      if latest.productionActivationStatus = "" ∧ inMem.productionActivationStatus ≠ "" then
        inMem.productionActivationStatus else latest.productionActivationStatus }

/-- The update-or-replace loop over `latest.Status.Conditions`: replace the
first condition of the same type, advancing `LastTransitionTime` only when
status, reason or message changed, and report `(conditions', conditionChanged,
updated)`. `cond` arrives with `lastTransitionTime = now`. -/
def updateConditionLoop (conds : List Condition) (cond : Condition) :
    List Condition × Bool × Bool :=
  match conds with
  | [] => ([], false, false)
  | c :: rest =>
    if c.type = cond.type then
      if c.status ≠ cond.status ∨ c.reason ≠ cond.reason ∨ c.message ≠ cond.message then
        (cond :: rest, true, true)
      else
        ({ cond with lastTransitionTime := c.lastTransitionTime } :: rest, false, true)
    else
      let (rest', changed, updated) := updateConditionLoop rest cond
      (c :: rest', changed, updated)

structure UpdateStatusResult where
  newStatus : AkamaiPropertyStatus
  wrote : Bool
deriving DecidableEq, Repr

/-- `updateStatus(ctx, akamaiProperty, phase, reason, message)` as a pure
function of the freshly read status, the in-memory status and the clock. -/
def updateStatus (latest inMem : AkamaiPropertyStatus) (phase reason message : String)
    (now : Nat) : UpdateStatusResult :=
  let statusChanged : Bool := latest.phase ≠ phase
  let l := { latest with phase := phase }
  let l := if statusChanged then { l with lastUpdated := some now } else l
  let l := mergePreserve l inMem
  let cond : Condition :=
    { type := ConditionTypeReady
      status := phase == PhaseReady
      lastTransitionTime := now
      reason := reason
      message := message }
  let (conds, condChanged, updated) := updateConditionLoop l.conditions cond
  let (conds, condChanged) :=
    if updated then (conds, condChanged) else (l.conditions ++ [cond], true)
  let final := { l with conditions := conds }
  if ¬statusChanged ∧ ¬condChanged then
    { newStatus := final, wrote := false }
  else
    { newStatus := final, wrote := true }

/-- When the stored Ready condition matches the computed one in status, reason
and message, the loop changes nothing but the stored entry keeps its
`lastTransitionTime`. -/
theorem updateConditionLoop_unchanged (conds : List Condition) (cond c : Condition)
    (hfind : findCondition conds cond.type = some c)
    (hst : c.status = cond.status) (hre : c.reason = cond.reason)
    (hme : c.message = cond.message) :
    (updateConditionLoop conds cond).2.1 = false ∧
    (updateConditionLoop conds cond).2.2 = true ∧
    findCondition (updateConditionLoop conds cond).1 cond.type = some c := by
  induction conds with
  | nil => simp [findCondition] at hfind
  | cons c0 rest ih =>
    by_cases hty : c0.type = cond.type
    · have hbeq : ((fun x : Condition => x.type == cond.type) c0) = true := by simp [hty]
      have hc0 : c0 = c := by
        unfold findCondition at hfind
        rw [List.find?_cons_of_pos (p := fun x : Condition => x.type == cond.type) rest hbeq]
          at hfind
        exact Option.some.inj hfind
      subst hc0
      have hceq : ({ cond with lastTransitionTime := c0.lastTransitionTime } : Condition) = c0 := by
        cases c0
        cases cond
        simp_all
      unfold updateConditionLoop
      rw [if_pos hty, if_neg (by simp [hst, hre, hme])]
      refine ⟨rfl, rfl, ?_⟩
      unfold findCondition
      rw [List.find?_cons_of_pos (p := fun x : Condition => x.type == cond.type) rest
        (by rw [hceq]; exact hbeq), hceq]
    · have hbeq : ¬ (((fun x : Condition => x.type == cond.type) c0) = true) := by simp [hty]
      have hfind' : findCondition rest cond.type = some c := by
        unfold findCondition at hfind ⊢
        rwa [List.find?_cons_of_neg (p := fun x : Condition => x.type == cond.type) rest hbeq]
          at hfind
      obtain ⟨h1, h2, h3⟩ := ih hfind'
      unfold updateConditionLoop
      rw [if_neg hty]
      rcases hrec : updateConditionLoop rest cond with ⟨rest', changed, updated⟩
      rw [hrec] at h1 h2 h3
      refine ⟨by simpa using h1, by simpa using h2, ?_⟩
      unfold findCondition at h3 ⊢
      show List.find? (fun x : Condition => x.type == cond.type) (c0 :: rest') = some c
      rw [List.find?_cons_of_neg (p := fun x : Condition => x.type == cond.type) rest' hbeq]
      simpa using h3

/-- `mergePreserve` never touches phase, lastUpdated or the conditions. -/
theorem mergePreserve_frame (latest inMem : AkamaiPropertyStatus) :
    (mergePreserve latest inMem).phase = latest.phase ∧
    (mergePreserve latest inMem).lastUpdated = latest.lastUpdated ∧
    (mergePreserve latest inMem).conditions = latest.conditions :=
  ⟨rfl, rfl, rfl⟩

/-- C5: `updateStatus` skips the cluster write entirely when neither the
status (phase) nor the Ready condition changed, and an unchanged
status/reason/message leaves the stored Ready condition — in particular its
`lastTransitionTime` — untouched. -/
theorem updateStatus_skip_when_unchanged
    (latest inMem : AkamaiPropertyStatus) (phase reason message : String) (now : Nat)
    (c : Condition)
    (hphase : latest.phase = phase)
    (hfind : findCondition latest.conditions ConditionTypeReady = some c)
    (hst : c.status = (phase == PhaseReady))
    (hre : c.reason = reason) (hme : c.message = message) :
    (updateStatus latest inMem phase reason message now).wrote = false ∧
    findCondition
      (updateStatus latest inMem phase reason message now).newStatus.conditions
      ConditionTypeReady = some c := by
  have hloop := updateConditionLoop_unchanged latest.conditions
    { type := ConditionTypeReady
      status := phase == PhaseReady
      lastTransitionTime := now
      reason := reason
      message := message } c hfind hst hre hme
  have hb : (decide ¬(latest.phase = phase)) = false := by simp [hphase]
  unfold updateStatus
  simp only [ne_eq, hb, if_false, Bool.false_eq_true, ite_false]
  rcases hrec : updateConditionLoop
      (mergePreserve { latest with phase := phase } inMem).conditions
      { type := ConditionTypeReady
        status := phase == PhaseReady
        lastTransitionTime := now
        reason := reason
        message := message } with ⟨conds', changed, updated⟩
  have hrec' : updateConditionLoop latest.conditions
      { type := ConditionTypeReady
        status := phase == PhaseReady
        lastTransitionTime := now
        reason := reason
        message := message } = (conds', changed, updated) := hrec
  rw [hrec'] at hloop
  obtain ⟨hch, hupd, hfc⟩ := hloop
  simp only at hch hupd
  subst hch
  subst hupd
  simp only [hrec, ite_true, Bool.not_false, Bool.and_self, if_true, not_false_iff]
  constructor
  · simp
  · simpa using hfc

/-- C5 witness: a concrete reconcile in which phase, reason and message are
unchanged; the write is skipped and the stored `lastTransitionTime` (7)
survives even though the clock reads 99. -/
theorem updateStatus_skip_when_unchanged_witness :
    (updateStatus
        { phase := "Ready"
          conditions := [{ type := "Ready", status := true, lastTransitionTime := 7,
                           reason := "PropertyIsReady", message := "" }] }
        {} "Ready" "PropertyIsReady" "" 99).wrote = false ∧
    findCondition
      (updateStatus
        { phase := "Ready"
          conditions := [{ type := "Ready", status := true, lastTransitionTime := 7,
                           reason := "PropertyIsReady", message := "" }] }
        {} "Ready" "PropertyIsReady" "" 99).newStatus.conditions
      ConditionTypeReady =
      some { type := "Ready", status := true, lastTransitionTime := 7,
             reason := "PropertyIsReady", message := "" } :=
  updateStatus_skip_when_unchanged _ _ _ _ _ _ _ rfl (by decide) (by decide) rfl rfl

/-! ## Deletion path (controllers: handleDeletion)

`handleDeletion` runs when the resource carries a deletion timestamp.  The
remote `DeleteProperty` call and the cluster `Update` that persists the
finalizer removal are oracles; the outcome records the calls issued, whether
the finalizer removal was persisted, and the returned `(ctrl.Result, error)`
pair. -/

inductive DeletionCall where
  | statusWrite (phase reason : String)
  | deleteProperty (propertyID : String)
  | removeFinalizerUpdate
deriving DecidableEq, Repr

/-- `ctrl.Result`: `requeue` plus a requeue-after delay in minutes (0 = none). -/
structure CtrlResult where
  requeue : Bool := false
  requeueAfterMinutes : Nat := 0
deriving DecidableEq, Repr

def emptyCtrlResult : CtrlResult := {}

structure DeletionOutcome where
  calls : List DeletionCall
  finalizerRemoved : Bool
  result : Except String CtrlResult
deriving Repr

/-- `handleDeletion(ctx, akamaiProperty)`: if the finalizer is present, mark
the phase `Deleting`, delete the remote property when one was created (on
failure set phase `Error` and requeue after 2 minutes without touching the
finalizer), then remove the finalizer and persist via the cluster update. -/
def handleDeletion (finalizerPresent : Bool) (propertyID : String)
    (deleteResult : Except String Unit) (clusterUpdateOk : Bool) : DeletionOutcome :=
  if finalizerPresent then
    let calls0 := [DeletionCall.statusWrite PhaseDeleting "DeletingAkamaiProperty"]
    if propertyID ≠ "" then
      match deleteResult with
      | .error _ =>
        { calls := calls0 ++ [DeletionCall.deleteProperty propertyID,
            DeletionCall.statusWrite PhaseError "FailedToDeleteProperty"]
          finalizerRemoved := false
          result := .ok { requeue := false, requeueAfterMinutes := 2 } }
      | .ok _ =>
        if clusterUpdateOk then
          { calls := calls0 ++ [DeletionCall.deleteProperty propertyID,
              DeletionCall.removeFinalizerUpdate]
            finalizerRemoved := true
            result := .ok emptyCtrlResult }
        else
          { calls := calls0 ++ [DeletionCall.deleteProperty propertyID,
              DeletionCall.removeFinalizerUpdate]
            finalizerRemoved := false
            result := .error "cluster update failed" }
    else
      if clusterUpdateOk then
        { calls := calls0 ++ [DeletionCall.removeFinalizerUpdate]
          finalizerRemoved := true
          result := .ok emptyCtrlResult }
      else
        { calls := calls0 ++ [DeletionCall.removeFinalizerUpdate]
          finalizerRemoved := false
          result := .error "cluster update failed" }
  else
    { calls := [], finalizerRemoved := false, result := .ok emptyCtrlResult }

/-- C8: with the finalizer present and the cluster update succeeding, the
finalizer is removed iff the remote property was deleted or never created;
when `DeleteProperty` fails the finalizer is retained, phase `Error` is
surfaced and the item is requeued (after 2 minutes, with a nil error). -/
theorem handleDeletion_finalizer_discipline (propertyID : String)
    (deleteResult : Except String Unit) :
    ((handleDeletion true propertyID deleteResult true).finalizerRemoved = true ↔
      (propertyID = "" ∨ deleteResult = .ok ())) ∧
    (∀ e, deleteResult = .error e → propertyID ≠ "" →
      (handleDeletion true propertyID deleteResult true).finalizerRemoved = false ∧
      DeletionCall.statusWrite PhaseError "FailedToDeleteProperty" ∈
        (handleDeletion true propertyID deleteResult true).calls ∧
      (handleDeletion true propertyID deleteResult true).result =
        .ok { requeue := false, requeueAfterMinutes := 2 }) := by
  constructor
  · by_cases hpid : propertyID = ""
    · simp [handleDeletion, hpid]
    · cases deleteResult with
      | error e => simp [handleDeletion, hpid]
      | ok u => cases u; simp [handleDeletion, hpid]
  · intro e hdel hpid
    subst hdel
    refine ⟨?_, ?_, ?_⟩ <;> simp [handleDeletion, hpid]

/-- C8 witness: a failing remote deletion on an existing property retains the
finalizer, and a successful one removes it. -/
theorem handleDeletion_finalizer_discipline_witness :
    ((handleDeletion true "prp_42" (.error "boom") true).finalizerRemoved = false ∧
      (handleDeletion true "prp_42" (.ok ()) true).finalizerRemoved = true) ∧
    (handleDeletion true "prp_42" (.error "boom") true).result =
      .ok { requeue := false, requeueAfterMinutes := 2 } := by
  have h1 := (handleDeletion_finalizer_discipline "prp_42" (.error "boom")).2
    "boom" rfl (by decide)
  have h2 := (handleDeletion_finalizer_discipline "prp_42" (.ok ())).1.mpr (Or.inr rfl)
  exact ⟨⟨h1.1, h2⟩, h1.2.2⟩

/-- C10: a deletion-marked object without the finalizer causes no remote CDN
call, no status write and no cluster update; `handleDeletion` returns the
empty result with a nil error. -/
theorem handleDeletion_no_finalizer_noop (propertyID : String)
    (deleteResult : Except String Unit) (clusterUpdateOk : Bool) :
    (handleDeletion false propertyID deleteResult clusterUpdateOk).calls = [] ∧
    (handleDeletion false propertyID deleteResult clusterUpdateOk).finalizerRemoved = false ∧
    (handleDeletion false propertyID deleteResult clusterUpdateOk).result =
      .ok emptyCtrlResult := by
  refine ⟨rfl, rfl, rfl⟩


/-! ## JSON model

Rule trees, rule options, and the opaque child carriers are JSON documents.
Objects are association lists (Go decodes them into `map[string]interface{}`;
the encoder emits map keys sorted, which `sortJson` below reproduces).
Numbers are carried as their literal text: the pipeline never computes with
them, and Go's float64 round-trip re-emits an equal literal. -/

inductive Json where
  | null
  | bool (b : Bool)
  | num (lit : String)
  | str (s : String)
  | arr (elems : List Json)
  | obj (fields : List (String × Json))
deriving Inhabited, Repr

/-- `strings.Contains`. -/
def strContains (s sub : String) : Bool := decide (sub.data <:+: s.data)

namespace Json

mutual

def beq : Json → Json → Bool
  | .null, .null => true
  | .bool a, .bool b => a == b
  | .num a, .num b => a == b
  | .str a, .str b => a == b
  | .arr a, .arr b => beqList a b
  | .obj a, .obj b => beqFields a b
  | _, _ => false

def beqList : List Json → List Json → Bool
  | [], [] => true
  | a :: as, b :: bs => beq a b && beqList as bs
  | _, _ => false

def beqFields : List (String × Json) → List (String × Json) → Bool
  | [], [] => true
  | (ka, va) :: as, (kb, vb) :: bs => ka == kb && beq va vb && beqFields as bs
  | _, _ => false

end

mutual

theorem beq_iff_eq : ∀ a b : Json, beq a b = true ↔ a = b
  | .null, b => by cases b <;> simp [beq]
  | .bool x, b => by cases b <;> simp [beq]
  | .num x, b => by cases b <;> simp [beq]
  | .str x, b => by cases b <;> simp [beq]
  | .arr xs, b => by
    cases b <;> simp [beq]
    exact beqList_iff_eq xs _
  | .obj fs, b => by
    cases b <;> simp [beq]
    exact beqFields_iff_eq fs _

theorem beqList_iff_eq : ∀ a b : List Json, beqList a b = true ↔ a = b
  | [], b => by cases b <;> simp [beqList]
  | x :: xs, b => by
    cases b with
    | nil => simp [beqList]
    | cons y ys =>
      simp only [beqList, Bool.and_eq_true, List.cons.injEq]
      rw [beq_iff_eq x y, beqList_iff_eq xs ys]

theorem beqFields_iff_eq : ∀ a b : List (String × Json), beqFields a b = true ↔ a = b
  | [], b => by cases b <;> simp [beqFields]
  | (k, v) :: xs, b => by
    cases b with
    | nil => simp [beqFields]
    | cons y ys =>
      rcases y with ⟨k', v'⟩
      simp only [beqFields, Bool.and_eq_true, List.cons.injEq, Prod.mk.injEq]
      rw [beq_iff_eq v v', beqFields_iff_eq xs ys]
      constructor
      · rintro ⟨⟨h1, h2⟩, h3⟩
        exact ⟨⟨by simpa using h1, h2⟩, h3⟩
      · rintro ⟨⟨h1, h2⟩, h3⟩
        exact ⟨⟨by simpa using h1, h2⟩, h3⟩

end

instance : BEq Json := ⟨beq⟩

instance : DecidableEq Json := fun a b =>
  decidable_of_iff (beq a b = true) (beq_iff_eq a b)

end Json

/-! ## Rule-tree write with validation fallback (pkg/akamai: UpdatePropertyRules)

The remote `UpdateRuleTree` endpoint is an oracle from requests to responses;
the embedding returns the list of requests issued (in order) together with the
overall result.  The `etag` parameter is accepted and, as in the source,
not forwarded. -/

structure UpdateRulesRequest where
  propertyID : String
  propertyVersion : Int
  contractID : String
  groupID : String
  rules : Json
  validateRules : Bool
  validateMode : String
  dryRun : Bool
deriving DecidableEq, Repr

structure UpdateRulesResponse where
  etag : String
  rules : Json
  errors : List String
deriving DecidableEq, Repr

/-- The error test guarding the fallback:
`strings.Contains(err.Error(), "not a feature") || strings.Contains(err.Error(), "validate")`. -/
def isValidationUnsupportedError (e : String) : Bool :=
  strContains e "not a feature" || strContains e "validate"

/-- The first request: full validation switched on, no dry run. -/
def fullValidationRequest (propertyID : String) (version : Int)
    (contractID groupID : String) (rules : Json) : UpdateRulesRequest :=
  { propertyID := propertyID
    propertyVersion := version
    contractID := contractID
    groupID := groupID
    rules := rules
    validateRules := true
    validateMode := "full"
    dryRun := false }

/-- The fallback request: same mutation with validation disabled. -/
def validationOffRequest (req : UpdateRulesRequest) : UpdateRulesRequest :=
  { req with validateRules := false, validateMode := "" }

/-- `UpdatePropertyRules` (pkg/akamai): try the write with `ValidateMode=full`;
if the remote rejects it with a validation-unsupported error, retry exactly
once with validation off; surface response-body rule errors as an error. -/
def UpdatePropertyRules (propertyID : String) (version : Int)
    (contractID groupID : String) (rules : Json) (_etag : String)
    (remote : UpdateRulesRequest → Except String UpdateRulesResponse) :
    List UpdateRulesRequest × Except String UpdateRulesResponse :=
  let req1 := fullValidationRequest propertyID version contractID groupID rules
  match remote req1 with
  | .ok resp =>
    if resp.errors ≠ [] then ([req1], .error "rule validation errors")
    else ([req1], .ok resp)
  | .error e =>
    if isValidationUnsupportedError e then
      let req2 := validationOffRequest req1
      match remote req2 with
      | .ok resp =>
        if resp.errors ≠ [] then ([req1, req2], .error "rule validation errors")
        else ([req1, req2], .ok resp)
      | .error e2 =>
        ([req1, req2], .error
          ("failed to update property rules (even without validation): " ++ e2))
    else
      ([req1], .error ("failed to update property rules: " ++ e))

/-- C9: on a first-call failure whose message indicates the full validation
mode is unsupported, the write is retried exactly once with `ValidateRules`
false and `ValidateMode` empty, and a failure of that single retry is
returned; any other first-call error is returned after the one attempt. -/
theorem UpdatePropertyRules_retries_once (propertyID : String) (version : Int)
    (contractID groupID : String) (rules : Json) (etag : String)
    (remote : UpdateRulesRequest → Except String UpdateRulesResponse) (e : String)
    (hfail : remote (fullValidationRequest propertyID version contractID groupID rules)
      = .error e) :
    (isValidationUnsupportedError e = true →
      (UpdatePropertyRules propertyID version contractID groupID rules etag remote).1 =
        [fullValidationRequest propertyID version contractID groupID rules,
         validationOffRequest
           (fullValidationRequest propertyID version contractID groupID rules)] ∧
      (validationOffRequest
        (fullValidationRequest propertyID version contractID groupID rules)).validateRules
          = false ∧
      (validationOffRequest
        (fullValidationRequest propertyID version contractID groupID rules)).validateMode
          = "" ∧
      (∀ e2, remote (validationOffRequest
          (fullValidationRequest propertyID version contractID groupID rules)) = .error e2 →
        (UpdatePropertyRules propertyID version contractID groupID rules etag remote).2 =
          .error
            ("failed to update property rules (even without validation): " ++ e2))) ∧
    (isValidationUnsupportedError e = false →
      (UpdatePropertyRules propertyID version contractID groupID rules etag remote).1 =
        [fullValidationRequest propertyID version contractID groupID rules] ∧
      (UpdatePropertyRules propertyID version contractID groupID rules etag remote).2 =
        .error ("failed to update property rules: " ++ e)) := by
  constructor
  · intro htrig
    refine ⟨?_, rfl, rfl, ?_⟩
    · unfold UpdatePropertyRules
      dsimp only
      rw [hfail]
      simp only [htrig, if_true]
      cases hr2 : remote (validationOffRequest
          (fullValidationRequest propertyID version contractID groupID rules)) with
      | ok resp => by_cases he : resp.errors = [] <;> simp [he]
      | error e2 => simp
    · intro e2 hr2
      unfold UpdatePropertyRules
      dsimp only
      rw [hfail]
      simp only [htrig, if_true]
      rw [hr2]
  · intro htrig
    unfold UpdatePropertyRules
    dsimp only
    rw [hfail]
    simp [htrig]

/-- C9 witness: a remote that rejects full validation with "not a feature"
and accepts the validation-off retry; the theorem applies with both trigger
branches dischargeable. -/
theorem UpdatePropertyRules_retries_once_witness :
    (isValidationUnsupportedError "not a feature" = true →
      (UpdatePropertyRules "prp_1" 3 "ctr" "grp" Json.null "etag0"
        (fun req => if req.validateRules then .error "not a feature"
          else .ok { etag := "e2", rules := Json.null, errors := [] })).1 =
        [fullValidationRequest "prp_1" 3 "ctr" "grp" Json.null,
         validationOffRequest (fullValidationRequest "prp_1" 3 "ctr" "grp" Json.null)] ∧
      (validationOffRequest
        (fullValidationRequest "prp_1" 3 "ctr" "grp" Json.null)).validateRules = false ∧
      (validationOffRequest
        (fullValidationRequest "prp_1" 3 "ctr" "grp" Json.null)).validateMode = "" ∧
      (∀ e2, (fun (req : UpdateRulesRequest) =>
          if req.validateRules then (.error "not a feature" :
            Except String UpdateRulesResponse)
          else .ok { etag := "e2", rules := Json.null, errors := [] })
          (validationOffRequest (fullValidationRequest "prp_1" 3 "ctr" "grp" Json.null)) =
            .error e2 →
        (UpdatePropertyRules "prp_1" 3 "ctr" "grp" Json.null "etag0"
          (fun req => if req.validateRules then .error "not a feature"
            else .ok { etag := "e2", rules := Json.null, errors := [] })).2 =
          .error
            ("failed to update property rules (even without validation): " ++ e2))) ∧
    (isValidationUnsupportedError "not a feature" = false →
      (UpdatePropertyRules "prp_1" 3 "ctr" "grp" Json.null "etag0"
        (fun req => if req.validateRules then .error "not a feature"
          else .ok { etag := "e2", rules := Json.null, errors := [] })).1 =
        [fullValidationRequest "prp_1" 3 "ctr" "grp" Json.null] ∧
      (UpdatePropertyRules "prp_1" 3 "ctr" "grp" Json.null "etag0"
        (fun req => if req.validateRules then .error "not a feature"
          else .ok { etag := "e2", rules := Json.null, errors := [] })).2 =
        .error ("failed to update property rules: " ++ "not a feature")) :=
  UpdatePropertyRules_retries_once "prp_1" 3 "ctr" "grp" Json.null "etag0"
    (fun req => if req.validateRules then .error "not a feature"
      else .ok { etag := "e2", rules := Json.null, errors := [] })
    "not a feature" rfl

/-! ## The rule-tree data model

The extended `PropertyRules` type (with `uuid`, `criteriaMustSatisfy`,
`comments`, RawExtension-valued `options`/`customOverride`, and `children`
carried as raw JSON) is referenced throughout the controllers and their tests
but its type declaration is not under `src/`.  Modelled from the spec: §3's
RuleNode — `name`, `criteriaMustSatisfy`, `criteria`, `behaviors`,
`variables {name, value, description?, hidden, sensitive}`, opaque `options`
and `customOverride`, `children` as raw JSON, plus the server-owned `uuid` —
with the customary `omitempty` JSON tags on every optional field (`name`,
`hidden`, `sensitive` are emitted unconditionally).  An `Option Json` field
mirrors a `runtime.RawExtension`: `none` is an absent or JSON-`null` value
(`RawExtension` stores nothing for `null`), `some v` is the carried raw
document. -/

structure RuleItem where
  name : String := ""
  uuid : String := ""
  options : Option Json := none
deriving DecidableEq, Repr

structure RuleVariable where
  name : String := ""
  value : String := ""
  description : String := ""
  hidden : Bool := false
  sensitive : Bool := false
deriving DecidableEq, Repr

structure PropertyRules where
  name : String := ""
  criteriaMustSatisfy : String := ""
  comments : String := ""
  uuid : String := ""
  criteria : List RuleItem := []
  behaviors : List RuleItem := []
  -- `Variables` in the source; the Lean field is `vars` (`variables` is a reserved word)
  vars : List RuleVariable := []
  options : Option Json := none
  customOverride : Option Json := none
  children : List Json := []
deriving DecidableEq, Repr

/-! ### encoding/json: marshalling

Struct marshalling emits fields in declaration order; `omitempty` drops empty
strings, empty slices and nil raw extensions. -/

def marshalItem (it : RuleItem) : Json :=
  .obj ([("name", .str it.name)]
    ++ (if it.uuid = "" then [] else [("uuid", .str it.uuid)])
    ++ (match it.options with | none => [] | some v => [("options", v)]))

def marshalVariable (v : RuleVariable) : Json :=
  .obj ([("name", .str v.name), ("value", .str v.value)]
    ++ (if v.description = "" then [] else [("description", .str v.description)])
    ++ [("hidden", .bool v.hidden), ("sensitive", .bool v.sensitive)])

def marshalRules (p : PropertyRules) : Json :=
  .obj ([("name", .str p.name)]
    ++ (if p.criteriaMustSatisfy = "" then []
        else [("criteriaMustSatisfy", .str p.criteriaMustSatisfy)])
    ++ (if p.comments = "" then [] else [("comments", .str p.comments)])
    ++ (if p.uuid = "" then [] else [("uuid", .str p.uuid)])
    ++ (if p.criteria = [] then [] else [("criteria", .arr (p.criteria.map marshalItem))])
    ++ (if p.behaviors = [] then [] else [("behaviors", .arr (p.behaviors.map marshalItem))])
    ++ (if p.vars = [] then []
        else [("variables", .arr (p.vars.map marshalVariable))])
    ++ (match p.options with | none => [] | some v => [("options", v)])
    ++ (match p.customOverride with | none => [] | some v => [("customOverride", v)])
    ++ (if p.children = [] then [] else [("children", .arr p.children)]))

/-! ### encoding/json: unmarshalling

Object keys are decoded in order, so a duplicated key is last-wins; a missing
or `null` field keeps the zero value; a field of the wrong shape is a decode
error (`none`). -/

def getField (fs : List (String × Json)) (k : String) : Option Json :=
  (fs.reverse.find? (fun kv => kv.1 == k)).map (fun kv => kv.2)

def readString : Option Json → Option String
  | none => some ""
  | some .null => some ""
  | some (.str s) => some s
  | some _ => none

def readBool : Option Json → Option Bool
  | none => some false
  | some .null => some false
  | some (.bool b) => some b
  | some _ => none

def readRaw : Option Json → Option Json
  | none => none
  | some .null => none
  | some v => some v

def readList : Option Json → Option (List Json)
  | none => some []
  | some .null => some []
  | some (.arr xs) => some xs
  | some _ => none

def unmarshalItem (j : Json) : Option RuleItem :=
  match j with
  | .obj fs => do
    let name ← readString (getField fs "name")
    let uuid ← readString (getField fs "uuid")
    some { name := name, uuid := uuid, options := readRaw (getField fs "options") }
  | _ => none

def unmarshalVariable (j : Json) : Option RuleVariable :=
  match j with
  | .obj fs => do
    let name ← readString (getField fs "name")
    let value ← readString (getField fs "value")
    let description ← readString (getField fs "description")
    let hidden ← readBool (getField fs "hidden")
    let sensitive ← readBool (getField fs "sensitive")
    some { name := name, value := value, description := description,
           hidden := hidden, sensitive := sensitive }
  | _ => none

/-- Decode a JSON object into `PropertyRules`.  A non-object document is a
decode error; this is the semantics of unmarshalling a child carrier's raw
bytes (for a `null` child the carrier holds no bytes and unmarshalling
errors). -/
def unmarshalRules (j : Json) : Option PropertyRules :=
  match j with
  | .obj fs => do
    let name ← readString (getField fs "name")
    let cms ← readString (getField fs "criteriaMustSatisfy")
    let comments ← readString (getField fs "comments")
    let uuid ← readString (getField fs "uuid")
    let critJs ← readList (getField fs "criteria")
    let criteria ← critJs.mapM unmarshalItem
    let behJs ← readList (getField fs "behaviors")
    let behaviors ← behJs.mapM unmarshalItem
    let varJs ← readList (getField fs "variables")
    let vars ← varJs.mapM unmarshalVariable
    let children ← readList (getField fs "children")
    some { name := name, criteriaMustSatisfy := cms, comments := comments, uuid := uuid,
           criteria := criteria, behaviors := behaviors, vars := vars,
           options := readRaw (getField fs "options"),
           customOverride := readRaw (getField fs "customOverride"),
           children := children }
  | _ => none

/-- Decode a whole JSON document into `PropertyRules`: unlike the child
carrier path, a top-level `null` document decodes to the zero value without
error. -/
def topUnmarshalRules (j : Json) : Option PropertyRules :=
  match j with
  | .null => some {}
  | _ => unmarshalRules j

/-! ### Go map round-trip: key canonicalisation

Decoding JSON into `map[string]interface{}` collapses duplicate keys
(last-wins) and re-encoding emits keys sorted; `canonJson` is that composite,
applied recursively (every nested object becomes a Go map). -/

/-- Keep, for every key, only its last occurrence (Go map insertion). -/
def lastWins (fs : List (String × Json)) : List (String × Json) :=
  fs.foldr (fun kv acc => if acc.any (fun kv' => kv'.1 == kv.1) then acc else kv :: acc) []

/-- Key order used by the Go encoder: lexicographic on the key string. -/
def keyLE (a b : String × Json) : Prop := a.1.data ≤ b.1.data

instance : DecidableRel keyLE := fun a b => inferInstanceAs (Decidable (a.1.data ≤ b.1.data))

instance : IsTotal (String × Json) keyLE := ⟨fun a b => le_total a.1.data b.1.data⟩

instance : IsTrans (String × Json) keyLE := ⟨fun _ _ _ h1 h2 => le_trans h1 h2⟩

def sortByKey (fs : List (String × Json)) : List (String × Json) :=
  fs.insertionSort keyLE

def canonJson : Json → Json
  | .obj fs => .obj (sortByKey (lastWins (fs.attach.map
      (fun kv => (kv.1.1, canonJson kv.1.2)))))
  | .arr xs => .arr (xs.attach.map (fun x => canonJson x.1))
  | .null => .null
  | .bool b => .bool b
  | .num n => .num n
  | .str s => .str s
termination_by j => sizeOf j
decreasing_by
  · have h1 : sizeOf kv.1 ≤ sizeOf fs := by
      have := List.sizeOf_lt_of_mem kv.2
      omega
    rcases kv with ⟨⟨k, v⟩, hm⟩
    have := List.sizeOf_lt_of_mem hm
    simp only [Prod.mk.sizeOf_spec] at this ⊢
    simp only [Json.obj.sizeOf_spec]
    omega
  · rcases x with ⟨x, hm⟩
    have := List.sizeOf_lt_of_mem hm
    simp only [Json.arr.sizeOf_spec]
    omega

/-! ### normalizeMapForComparison (controllers)

Go iterates the map deleting empty strings, empty maps, empty arrays and
nulls, recursing into nested maps and into map-valued array elements. -/

mutual

/-- The fate of one map entry's value: `none` means the key is deleted. -/
def nmValue : Json → Option Json
  | .obj g => let g' := nmFields g; if g' = [] then none else some (.obj g')
  | .arr xs => if xs = [] then none else some (.arr (nmElems xs))
  | .str s => if s = "" then none else some (.str s)
  | .null => none
  | .bool b => some (.bool b)
  | .num n => some (.num n)

def nmFields : List (String × Json) → List (String × Json)
  | [] => []
  | (k, v) :: rest =>
    match nmValue v with
    | none => nmFields rest
    | some v' => (k, v') :: nmFields rest

/-- Array elements: only map-valued elements are normalised (and never
deleted). -/
def nmElems : List Json → List Json
  | [] => []
  | x :: xs => (match x with | .obj g => .obj (nmFields g) | y => y) :: nmElems xs

end

/-- `normalizeMapForComparison`: the Go function takes the decoded root map;
a non-object document is left alone. -/
def normalizeMapForComparison : Json → Json
  | .obj fs => .obj (nmFields fs)
  | j => j

/-- `nmElems` preserves length. -/
theorem nmElems_length (xs : List Json) : (nmElems xs).length = xs.length := by
  induction xs with
  | nil => rfl
  | cons x xs ih => simp [nmElems, ih]

/- Normalisation is idempotent: re-running the empty-value sweep changes
nothing. -/
mutual

theorem nmValue_idem : ∀ v w, nmValue v = some w → nmValue w = some w
  | .obj g, w, h => by
    by_cases hg : nmFields g = []
    · simp [nmValue, hg] at h
    · simp only [nmValue, hg, if_neg, ite_false] at h
      have hw : w = .obj (nmFields g) := by
        simp at h
        exact h.symm
      subst hw
      simp [nmValue, nmFields_idem g, hg]
  | .arr xs, w, h => by
    by_cases hx : xs = []
    · simp [nmValue, hx] at h
    · simp only [nmValue, hx, if_neg, ite_false] at h
      have hw : w = .arr (nmElems xs) := by
        simp at h
        exact h.symm
      subst hw
      have hne : nmElems xs ≠ [] := by
        intro hc
        have := nmElems_length xs
        rw [hc] at this
        exact hx (List.length_eq_zero.mp this.symm)
      simp [nmValue, hne, nmElems_idem xs]
  | .str s, w, h => by
    by_cases hs : s = ""
    · simp [nmValue, hs] at h
    · simp only [nmValue, hs, if_neg, ite_false] at h
      have hw : w = .str s := by
        simp at h
        exact h.symm
      subst hw
      simp [nmValue, hs]
  | .null, w, h => by
    simp [nmValue] at h
  | .bool b, w, h => by
    simp only [nmValue, Option.some.injEq] at h
    subst h
    simp [nmValue]
  | .num n, w, h => by
    simp only [nmValue, Option.some.injEq] at h
    subst h
    simp [nmValue]

theorem nmFields_idem : ∀ fs, nmFields (nmFields fs) = nmFields fs
  | [] => by simp [nmFields]
  | (k, v) :: rest => by
    rw [nmFields]
    cases hv : nmValue v with
    | none => simpa using nmFields_idem rest
    | some v' =>
      simp only []
      rw [nmFields]
      rw [nmValue_idem v v' hv]
      simp only []
      rw [nmFields_idem rest]

theorem nmElems_idem : ∀ xs, nmElems (nmElems xs) = nmElems xs
  | [] => by simp [nmElems]
  | x :: xs => by
    cases x with
    | obj g => simp [nmElems, nmElems_idem xs, nmFields_idem g]
    | null => simp [nmElems, nmElems_idem xs]
    | bool b => simp [nmElems, nmElems_idem xs]
    | num n => simp [nmElems, nmElems_idem xs]
    | str s => simp [nmElems, nmElems_idem xs]
    | arr ys => simp [nmElems, nmElems_idem xs]

end

/-! ### Properties of the key canonicalisation -/

def canonFields (fs : List (String × Json)) : List (String × Json) :=
  sortByKey (lastWins (fs.map (fun kv => (kv.1, canonJson kv.2))))

theorem canonJson_obj (fs : List (String × Json)) :
    canonJson (.obj fs) = .obj (canonFields fs) := by
  rw [canonJson, canonFields]
  congr 1
  congr 1
  congr 1
  exact List.attach_map_val fs (fun kv => (kv.1, canonJson kv.2))

theorem canonJson_arr (xs : List Json) :
    canonJson (.arr xs) = .arr (xs.map canonJson) := by
  rw [canonJson]
  congr 1
  exact List.attach_map_val xs canonJson

theorem lastWins_cons (kv : String × Json) (fs : List (String × Json)) :
    lastWins (kv :: fs) =
      if (lastWins fs).any (fun kv' => kv'.1 == kv.1) then lastWins fs
      else kv :: lastWins fs := rfl

theorem lastWins_subset (fs : List (String × Json)) : lastWins fs ⊆ fs := by
  induction fs with
  | nil => simp [lastWins]
  | cons kv rest ih =>
    rw [lastWins_cons]
    split
    · exact ih.trans (List.subset_cons_self kv rest)
    · intro x hx
      rcases List.mem_cons.mp hx with hx | hx
      · exact hx ▸ List.mem_cons_self kv rest
      · exact List.mem_cons_of_mem kv (ih hx)

theorem lastWins_keys_nodup (fs : List (String × Json)) :
    ((lastWins fs).map Prod.fst).Nodup := by
  induction fs with
  | nil => simp [lastWins]
  | cons kv rest ih =>
    rw [lastWins_cons]
    split
    · exact ih
    · rename_i hany
      refine List.Nodup.cons ?_ ih
      intro hmem
      apply hany
      obtain ⟨kv', hkv', hfst⟩ := List.mem_map.mp hmem
      exact List.any_eq_true.mpr ⟨kv', hkv', by simp [hfst]⟩

theorem lastWins_of_nodup (fs : List (String × Json))
    (h : (fs.map Prod.fst).Nodup) : lastWins fs = fs := by
  induction fs with
  | nil => rfl
  | cons kv rest ih =>
    simp only [List.map_cons, List.nodup_cons] at h
    rw [lastWins_cons, ih h.2, if_neg]
    intro hany
    obtain ⟨kv', hkv', heq⟩ := List.any_eq_true.mp hany
    exact h.1 (List.mem_map.mpr ⟨kv', hkv', by simpa using heq.symm⟩)

/-- Canonical JSON values: every object has duplicate-free, key-sorted
fields. -/
inductive IsCanon : Json → Prop where
  | null : IsCanon .null
  | bool (b : Bool) : IsCanon (.bool b)
  | num (n : String) : IsCanon (.num n)
  | str (s : String) : IsCanon (.str s)
  | arr (xs : List Json) : (∀ x ∈ xs, IsCanon x) → IsCanon (.arr xs)
  | obj (fs : List (String × Json)) : (∀ kv ∈ fs, IsCanon kv.2) →
      ((fs.map Prod.fst).Nodup) → List.Sorted keyLE fs → IsCanon (.obj fs)

theorem isCanon_canonJson (j : Json) : IsCanon (canonJson j) := by
  have H : ∀ n (j : Json), sizeOf j ≤ n → IsCanon (canonJson j) := by
    intro n
    induction n with
    | zero =>
      intro j h
      cases j <;> simp at h
    | succ n ih =>
      intro j h
      cases j with
      | null => rw [canonJson]; exact .null
      | bool b => rw [canonJson]; exact .bool b
      | num m => rw [canonJson]; exact .num m
      | str s => rw [canonJson]; exact .str s
      | arr xs =>
        rw [canonJson_arr]
        refine .arr _ ?_
        intro x hx
        obtain ⟨y, hy, hxy⟩ := List.mem_map.mp hx
        have hs : sizeOf y ≤ n := by
          have := List.sizeOf_lt_of_mem hy
          simp only [Json.arr.sizeOf_spec] at h
          omega
        exact hxy ▸ ih y hs
      | obj fs =>
        rw [canonJson_obj]
        have hsub : canonFields fs ⊆ fs.map (fun kv => (kv.1, canonJson kv.2)) := by
          intro kv hkv
          have h1 : kv ∈ lastWins (fs.map (fun kv => (kv.1, canonJson kv.2))) :=
            (List.perm_insertionSort keyLE _).mem_iff.mp hkv
          exact lastWins_subset _ h1
        refine .obj _ ?_ ?_ ?_
        · intro kv hkv
          obtain ⟨⟨k0, v0⟩, hm, hkv0⟩ := List.mem_map.mp (hsub hkv)
          have hs : sizeOf v0 ≤ n := by
            have := List.sizeOf_lt_of_mem hm
            simp only [Json.obj.sizeOf_spec, Prod.mk.sizeOf_spec] at h this
            omega
          have hcv := ih v0 hs
          rw [← hkv0]
          exact hcv
        · have hn := lastWins_keys_nodup (fs.map (fun kv => (kv.1, canonJson kv.2)))
          have hp : ((canonFields fs).map Prod.fst).Perm
              ((lastWins (fs.map (fun kv => (kv.1, canonJson kv.2)))).map Prod.fst) :=
            (List.perm_insertionSort keyLE _).map Prod.fst
          exact hp.nodup_iff.mpr hn
        · exact List.sorted_insertionSort keyLE _
  exact H (sizeOf j) j le_rfl

theorem canonJson_of_isCanon (j : Json) (hc : IsCanon j) : canonJson j = j := by
  have H : ∀ n (j : Json), sizeOf j ≤ n → IsCanon j → canonJson j = j := by
    intro n
    induction n with
    | zero =>
      intro j h
      cases j <;> simp at h
    | succ n ih =>
      intro j h hc
      cases hc with
      | null => rw [canonJson]
      | bool b => rw [canonJson]
      | num m => rw [canonJson]
      | str s => rw [canonJson]
      | arr xs hxs =>
        rw [canonJson_arr]
        congr 1
        have : ∀ x ∈ xs, canonJson x = x := by
          intro x hx
          have hs : sizeOf x ≤ n := by
            have := List.sizeOf_lt_of_mem hx
            simp only [Json.arr.sizeOf_spec] at h
            omega
          exact ih x hs (hxs x hx)
        rw [List.map_congr_left this, List.map_id']
      | obj fs hvals hnodup hsorted =>
        rw [canonJson_obj]
        congr 1
        have hmap : fs.map (fun kv => (kv.1, canonJson kv.2)) = fs := by
          have : ∀ kv ∈ fs, (fun kv : String × Json => (kv.1, canonJson kv.2)) kv = id kv := by
            intro kv hkv
            have hs : sizeOf kv.2 ≤ n := by
              have := List.sizeOf_lt_of_mem hkv
              have h2 : sizeOf kv.2 < sizeOf kv := by
                rcases kv with ⟨k, v⟩
                simp [Prod.mk.sizeOf_spec]
              simp only [Json.obj.sizeOf_spec] at h
              omega
            have := ih kv.2 hs (hvals kv hkv)
            simp [this]
          rw [List.map_congr_left this, List.map_id]
        rw [canonFields, hmap, lastWins_of_nodup fs hnodup]
        exact List.Sorted.insertionSort_eq hsorted
  exact H (sizeOf j) j le_rfl hc

theorem canonJson_idem (j : Json) : canonJson (canonJson j) = canonJson j :=
  canonJson_of_isCanon _ (isCanon_canonJson j)

/-! ### cleanRulesForComparison and helpers (controllers) -/

/-- `normalizeOptionsMap`: drop the server-stamped option fields, then drop
empty strings, empty objects and empty arrays (top level of the options map
only). -/
def normalizeOptionsMap (fs : List (String × Json)) : List (String × Json) :=
  let fieldsToRemove := ["uuid", "templateUuid", "lastModified", "created", "etag", "ruleFormat"]
  (fs.filter (fun kv => ¬ fieldsToRemove.contains kv.1)).filter (fun kv =>
    match kv.2 with
    | .str s => s ≠ ""
    | .obj g => g ≠ []
    | .arr xs => xs ≠ []
    | _ => true)

/-- Root-level options cleanup: decodes into a map, and a decoded empty (or
null) map resets the carrier; anything that does not decode into a map is
kept. -/
def cleanOptionsRoot : Option Json → Option Json
  | some (.obj []) => none
  | some .null => none
  | o => o

/-- `customOverride` cleanup: a decoded null resets the carrier. -/
def cleanCustomOverride : Option Json → Option Json
  | some .null => none
  | o => o

/-- Behavior/criteria options cleanup: decode into a Go map (which
canonicalises keys at every level), run `normalizeOptionsMap` on the top
level, and re-encode; non-map carriers are kept as they are. -/
def cleanItemOptions : Option Json → Option Json
  | some (.obj fs) =>
    match canonJson (.obj fs) with
    | .obj fs' => some (.obj (normalizeOptionsMap fs'))
    | j => some j
  | o => o

def cleanBehaviorForComparison (b : RuleItem) : RuleItem :=
  { b with uuid := "", options := cleanItemOptions b.options }

def cleanCriteriaForComparison (c : RuleItem) : RuleItem :=
  { c with uuid := "", options := cleanItemOptions c.options }

/-- Inversion of the rules decoder: the decoded children are exactly the
`children` field's array. -/
theorem unmarshalRules_children (fs : List (String × Json)) (p : PropertyRules)
    (h : unmarshalRules (.obj fs) = some p) :
    readList (getField fs "children") = some p.children := by
  simp only [unmarshalRules, Option.bind_eq_bind, Option.bind_eq_some,
    Option.some.injEq] at h
  obtain ⟨name, -, cms, -, comments, -, uuid, -, critJs, -, criteria, -, behJs, -,
    behaviors, -, varJs, -, vars, -, children, hch, hp⟩ := h
  rw [hch]
  rw [← hp]

/-- Any member of a decoded `children` list is structurally smaller than the
containing document. -/
theorem sizeOf_child_lt (j : Json) (p : PropertyRules) (c : Json)
    (h : unmarshalRules j = some p) (hc : c ∈ p.children) : sizeOf c < sizeOf j := by
  cases j with
  | obj fs =>
    have hch := unmarshalRules_children fs p h
    cases hg : getField fs "children" with
    | none =>
      rw [hg] at hch
      simp only [readList, Option.some.injEq] at hch
      rw [← hch] at hc
      simp at hc
    | some v =>
      rw [hg] at hch
      have hmem : ∃ kk, (kk, v) ∈ fs := by
        unfold getField at hg
        cases hf : (fs.reverse.find? (fun kv => kv.1 == "children")) with
        | none => rw [hf] at hg; simp at hg
        | some kv =>
          rw [hf] at hg
          simp at hg
          refine ⟨kv.1, ?_⟩
          have := List.mem_of_find?_eq_some hf
          rw [← hg]
          exact List.mem_reverse.mp this
      obtain ⟨kk, hkv⟩ := hmem
      have hsv : sizeOf v < sizeOf (Json.obj fs) := by
        have h1 := List.sizeOf_lt_of_mem hkv
        simp only [Prod.mk.sizeOf_spec] at h1
        simp only [Json.obj.sizeOf_spec]
        omega
      cases v with
      | arr xs =>
        simp only [readList, Option.some.injEq] at hch
        rw [← hch] at hc
        have := List.sizeOf_lt_of_mem hc
        simp only [Json.arr.sizeOf_spec] at hsv
        simp only [Json.arr.sizeOf_spec] at this ⊢
        omega
      | null =>
        simp only [readList, Option.some.injEq] at hch
        rw [← hch] at hc
        simp at hc
      | bool b => simp [readList] at hch
      | num n => simp [readList] at hch
      | str s => simp [readList] at hch
      | obj g => simp [readList] at hch
  | null => simp [unmarshalRules] at h
  | bool b => simp [unmarshalRules] at h
  | num n => simp [unmarshalRules] at h
  | str s => simp [unmarshalRules] at h
  | arr xs => simp [unmarshalRules] at h

/-- Clean one raw child carrier: decode, clean recursively, re-encode; a
carrier that does not decode is left untouched. -/
def cleanChildJson (j : Json) : Json :=
  match h : unmarshalRules j with
  | none => j
  | some p =>
    marshalRules
      { name := p.name
        criteriaMustSatisfy :=
          if p.criteriaMustSatisfy = "" then "all" else p.criteriaMustSatisfy
        comments := p.comments
        uuid := ""
        criteria := p.criteria.map cleanCriteriaForComparison
        behaviors := p.behaviors.map cleanBehaviorForComparison
        vars := p.vars
        options := cleanOptionsRoot p.options
        customOverride := cleanCustomOverride p.customOverride
        children := p.children.attach.map (fun c => cleanChildJson c.1) }
termination_by sizeOf j
decreasing_by
  exact sizeOf_child_lt j p c.1 h c.2

/-- `cleanRulesForComparison` (controllers): reset server-generated fields,
default `criteriaMustSatisfy`, normalise raw carriers, clean behaviors,
criteria and children. -/
def cleanRulesForComparison (p : PropertyRules) : PropertyRules :=
  { name := p.name
    criteriaMustSatisfy :=
      if p.criteriaMustSatisfy = "" then "all" else p.criteriaMustSatisfy
    comments := p.comments
    uuid := ""
    criteria := p.criteria.map cleanCriteriaForComparison
    behaviors := p.behaviors.map cleanBehaviorForComparison
    vars := p.vars
    options := cleanOptionsRoot p.options
    customOverride := cleanCustomOverride p.customOverride
    children := p.children.map cleanChildJson }

/-- The child cleaner is the decode/clean/re-encode composite. -/
theorem cleanChildJson_eq (j : Json) :
    cleanChildJson j =
      match unmarshalRules j with
      | none => j
      | some p => marshalRules (cleanRulesForComparison p) := by
  rw [cleanChildJson]
  cases h : unmarshalRules j with
  | none => rfl
  | some p =>
    simp only [cleanRulesForComparison]
    congr 1
    congr 1
    exact List.attach_map_val p.children cleanChildJson

/-! ### Rule validation (controllers)

`validatePropertyRules` and its helpers return an error or nil; the embedding
returns `true` exactly when the Go function returns nil. -/

/-- `validateRuleBehavior`: a behavior needs a name; `origin` and `caching`
additionally need a non-nil options carrier. -/
def validateRuleBehavior (b : RuleItem) : Bool :=
  b.name != "" &&
    (if b.name = "origin" then b.options.isSome
     else if b.name = "caching" then b.options.isSome
     else true)

/-- `validateRuleCriteria`: a criterion needs a name; `hostname`, `path` and
`requestMethod` additionally need a non-nil options carrier. -/
def validateRuleCriteria (c : RuleItem) : Bool :=
  c.name != "" &&
    (if c.name = "hostname" then c.options.isSome
     else if c.name = "path" then c.options.isSome
     else if c.name = "requestMethod" then c.options.isSome
     else true)

/-- `validateRuleVariable`: a variable needs a non-empty, uppercase,
space-free name. -/
def validateRuleVariable (v : RuleVariable) : Bool :=
  v.name != "" && v.name == v.name.toUpper && !(strContains v.name " ")

/-- The per-level checks of `validatePropertyRules`: the rule is named
`default` (an empty name and a non-`default` name are both rejected), every
behavior, criterion and variable passes its check, and no variable name
repeats. -/
def validateShallow (p : PropertyRules) : Bool :=
  p.name == "default" &&
  p.behaviors.all validateRuleBehavior &&
  p.criteria.all validateRuleCriteria &&
  p.vars.all validateRuleVariable &&
  decide ((p.vars.map (fun v => v.name)).Nodup)

/-- Validate one raw child carrier: decode it (a carrier that does not
decode is an error) and validate the decoded rule recursively. -/
def validateChildJson (j : Json) : Bool :=
  match h : unmarshalRules j with
  | none => false
  | some p => validateShallow p && p.children.attach.all (fun c => validateChildJson c.1)
termination_by sizeOf j
decreasing_by
  exact sizeOf_child_lt j p c.1 h c.2

/-- `validatePropertyRules` (controllers): nil rules are valid; otherwise the
top-level checks plus the recursive child validation. -/
def validatePropertyRules (rules : Option PropertyRules) : Bool :=
  match rules with
  | none => true
  | some p => validateShallow p && p.children.all validateChildJson

/-! ### The differ: copyAndCleanRules, compareRulesDeep, rulesNeedUpdate
(controllers) -/

/-- `copyAndCleanRules`: deep copy through a JSON marshal/unmarshal
round-trip (returning the original if either step fails), then clean the
copy. -/
def copyAndCleanRules (p : PropertyRules) : PropertyRules :=
  match topUnmarshalRules (marshalRules p) with
  | none => p
  | some q => cleanRulesForComparison q

/-- `normalizeCurrentRules`: the API response tree is a decoded document, so
marshalling it emits every object with sorted, duplicate-free keys
(`canonJson`); the bytes are then unmarshalled into `PropertyRules` (an
error is `none`) and the result cleaned. -/
def normalizeCurrentRules (current : Json) : Option PropertyRules :=
  (topUnmarshalRules (canonJson current)).map cleanRulesForComparison

/-- The normal form `compareRulesDeep` computes for each side: clean copy,
marshal, decode into a Go map (duplicate keys collapse and the re-encode
order is sorted: `canonJson`), sweep out empty values
(`normalizeMapForComparison`), re-marshal.  `marshalRules` always emits an
object, so the decode into a map cannot fail. -/
def differNormalise (p : PropertyRules) : Json :=
  normalizeMapForComparison (canonJson (marshalRules (copyAndCleanRules p)))

/-- `compareRulesDeep`: true iff the normalised byte strings differ. -/
def compareRulesDeep (desired current : PropertyRules) : Bool :=
  decide (differNormalise desired ≠ differNormalise current)

/-- `rulesNeedUpdate`: nil desired rules never need an update; a current
tree that does not decode is an error (`none`); otherwise the deep
compare decides. -/
def rulesNeedUpdate (desired : Option PropertyRules) (current : Json) : Option Bool :=
  match desired with
  | none => some false
  | some d =>
    match normalizeCurrentRules current with
    | none => none
    | some c => some (compareRulesDeep d c)

/-! ### Remote property state and the write façade (pkg/akamai client)

The client consults the remote property record (latest, staging and
production version numbers); other remote outcomes (the version number
carried in a CreatePropertyVersion response link, call failures) enter as
oracle fields of `RulesEnv`. -/

structure RemoteProperty where
  latestVersion : Int := 0
  stagingVersion : Int := 0
  productionVersion : Int := 0
deriving DecidableEq, Repr

/-- `IsVersionPublished` (client): a version is published iff it is the
current staging version (network `STAGING`) or the current production
version (network `PRODUCTION`). -/
def IsVersionPublished (prop : RemoteProperty) (version : Int) : Bool × String :=
  if prop.stagingVersion = version then (true, "STAGING")
  else if prop.productionVersion = version then (true, "PRODUCTION")
  else (false, "")

/-- One remote or cluster call issued while updating rules, in issue
order. -/
inductive RulesCall where
  | getPropertyRules (version : Int)
  | getProperty
  | isVersionPublished (version : Int)
  | createPropertyVersion (fromVersion : Int)
  | setPropertyHostnames (version : Int)
  | persistLatestVersion (latestVersion : Int)
  | setPhase (phase : String) (reason : String)
  | updatePropertyRules (version : Int) (etag : String)
deriving DecidableEq, Repr

/-- The environment a rules update runs against: `property` is the remote
property record (`none` makes `GetProperty`, and with it
`IsVersionPublished`, fail), `getRulesResult` the `GetPropertyRules`
response (rules tree and etag), `createdVersion` the version number in the
`CreatePropertyVersion` response link, and the `Ok` flags the outcomes of
the remaining calls. -/
structure RulesEnv where
  property : Option RemoteProperty := none
  getRulesResult : Option (Json × String) := none
  createdVersion : Int := 0
  createOk : Bool := true
  setHostnamesOk : Bool := true
  persistOk : Bool := true
  updateRulesOk : Bool := true

/-- `UpdateProperty` (client, hostnames revision): read the property, check
whether its latest version is published; if so clone a new version from it,
then push the spec hostnames when any are present, and return the version
to update.  The trace records the calls in issue order; `none` is an
error return. -/
def UpdateProperty (env : RulesEnv) (hostnamesCount : Nat) :
    List RulesCall × Option Int :=
  match env.property with
  | none => ([RulesCall.getProperty], none)
  | some prop =>
    let latest := prop.latestVersion
    let t0 := [RulesCall.getProperty, RulesCall.isVersionPublished latest]
    if (IsVersionPublished prop latest).1 then
      if env.createOk then
        let v := env.createdVersion
        if hostnamesCount > 0 then
          (t0 ++ [RulesCall.createPropertyVersion latest, RulesCall.setPropertyHostnames v],
           if env.setHostnamesOk then some v else none)
        else
          (t0 ++ [RulesCall.createPropertyVersion latest], some v)
      else
        (t0 ++ [RulesCall.createPropertyVersion latest], none)
    else
      if hostnamesCount > 0 then
        (t0 ++ [RulesCall.setPropertyHostnames latest],
         if env.setHostnamesOk then some latest else none)
      else
        (t0, some latest)

/-- `updateRulesIfNeeded` (controllers): validate the spec rules, read the
current rules of `status.latestVersion`, and stop before any publish check
when no update is needed.  Otherwise check whether `latestVersion` is
published; if so fork through `UpdateProperty`, record the new version in
the status and persist it, and only then set the Updating phase and write
the rules (with the current etag) against the chosen version.  Returns the
call trace, the result (`none` is an error, otherwise whether an update was
performed), and the in-memory `status.latestVersion` after the run.  On the
write path the desired rules are non-nil (a nil desired never needs an
update), so `convertRulesToAkamaiFormat` cannot fail. -/
def updateRulesIfNeeded (env : RulesEnv) (specRules : Option PropertyRules)
    (hostnamesCount : Nat) (latestVersion : Int) :
    List RulesCall × Option Bool × Int :=
  if validatePropertyRules specRules = false then ([], none, latestVersion)
  else
    match env.getRulesResult with
    | none => ([RulesCall.getPropertyRules latestVersion], none, latestVersion)
    | some (currentJson, etag) =>
      match rulesNeedUpdate specRules currentJson with
      | none => ([RulesCall.getPropertyRules latestVersion], none, latestVersion)
      | some false => ([RulesCall.getPropertyRules latestVersion], some false, latestVersion)
      | some true =>
        let t0 := [RulesCall.getPropertyRules latestVersion,
                   RulesCall.isVersionPublished latestVersion]
        match env.property with
        | none => (t0, none, latestVersion)
        | some prop =>
          if (IsVersionPublished prop latestVersion).1 then
            let forked := UpdateProperty env hostnamesCount
            match forked.2 with
            | none => (t0 ++ forked.1, none, latestVersion)
            | some newVersion =>
              if env.persistOk then
                (t0 ++ forked.1 ++
                   [RulesCall.persistLatestVersion newVersion,
                    RulesCall.setPhase PhaseUpdating "UpdatingPropertyRules",
                    RulesCall.updatePropertyRules newVersion etag],
                 if env.updateRulesOk then some true else none, newVersion)
              else
                (t0 ++ forked.1 ++ [RulesCall.persistLatestVersion newVersion],
                 none, newVersion)
          else
            (t0 ++ [RulesCall.setPhase PhaseUpdating "UpdatingPropertyRules",
                    RulesCall.updatePropertyRules latestVersion etag],
             if env.updateRulesOk then some true else none, latestVersion)

/-- C2: for every reconcile in which spec.rules is present and the
normalised desired rule tree equals the normalised current rule tree of
status.latestVersion, `updateRulesIfNeeded` creates no new property version
and issues no rules write — regardless of whether latestVersion is
published on staging or production — and the in-memory
`status.latestVersion` is unchanged. -/
theorem updateRulesIfNeeded_noop_on_equal (env : RulesEnv) (d : PropertyRules)
    (hostnamesCount : Nat) (latestVersion : Int)
    (cur : Json) (etag : String) (c : PropertyRules)
    (hget : env.getRulesResult = some (cur, etag))
    (hnorm : normalizeCurrentRules cur = some c)
    (heq : differNormalise d = differNormalise c) :
    (∀ call ∈ (updateRulesIfNeeded env (some d) hostnamesCount latestVersion).1,
        (∀ v, call ≠ RulesCall.createPropertyVersion v) ∧
        (∀ v e, call ≠ RulesCall.updatePropertyRules v e)) ∧
    (updateRulesIfNeeded env (some d) hostnamesCount latestVersion).2.2 = latestVersion := by
  have hcmp : compareRulesDeep d c = false := by
    simp [compareRulesDeep, heq]
  have hrnu : rulesNeedUpdate (some d) cur = some false := by
    simp [rulesNeedUpdate, hnorm, hcmp]
  unfold updateRulesIfNeeded
  by_cases hv : validatePropertyRules (some d) = false
  · rw [if_pos hv]
    exact ⟨fun call hc => by simp at hc, rfl⟩
  · rw [if_neg hv, hget]
    simp only [hrnu]
    refine ⟨fun call hc => ?_, trivial⟩
    simp only [List.mem_singleton] at hc
    subst hc
    exact ⟨fun v => by simp, fun v e => by simp⟩

/-- Witness for C2: a property whose current rules document is `null`
(decoding to the zero rule tree) and whose desired rules are that tree
already cleaned; the run reads the rules once, forks nothing and writes
nothing. -/
theorem updateRulesIfNeeded_noop_on_equal_witness :
    (normalizeCurrentRules Json.null = some (cleanRulesForComparison {}) ∧
     differNormalise (cleanRulesForComparison {}) =
       differNormalise (cleanRulesForComparison {})) ∧
    ((∀ call ∈ (updateRulesIfNeeded { getRulesResult := some (Json.null, "") }
          (some (cleanRulesForComparison {})) 0 3).1,
        (∀ v, call ≠ RulesCall.createPropertyVersion v) ∧
        (∀ v e, call ≠ RulesCall.updatePropertyRules v e)) ∧
     (updateRulesIfNeeded { getRulesResult := some (Json.null, "") }
          (some (cleanRulesForComparison {})) 0 3).2.2 = 3) := by
  have hnorm : normalizeCurrentRules Json.null = some (cleanRulesForComparison {}) := by
    simp [normalizeCurrentRules, canonJson, topUnmarshalRules]
  exact ⟨⟨hnorm, rfl⟩,
    updateRulesIfNeeded_noop_on_equal _ _ 0 3 Json.null "" (cleanRulesForComparison {})
      rfl hnorm rfl⟩

/-- C3: for every reconcile in which spec.rules is present, the normalised
desired and current rule trees differ, and status.latestVersion is
published on staging or production (with the status in sync with the remote
record and the remote allocating a fresh, strictly larger number for the
cloned version), the run forks a new version from latestVersion, persists
`status.latestVersion = newVersion` before the rules write is issued, and
the rules write targets that new version, which is strictly greater than
the previous latestVersion. -/
theorem updateRulesIfNeeded_fork_on_published (env : RulesEnv) (d : PropertyRules)
    (hostnamesCount : Nat) (latestVersion : Int)
    (cur : Json) (etag : String) (c : PropertyRules) (prop : RemoteProperty)
    (hval : validatePropertyRules (some d) = true)
    (hget : env.getRulesResult = some (cur, etag))
    (hnorm : normalizeCurrentRules cur = some c)
    (hneq : differNormalise d ≠ differNormalise c)
    (hprop : env.property = some prop)
    (hsync : prop.latestVersion = latestVersion)
    (hpub : (IsVersionPublished prop latestVersion).1 = true)
    (hfresh : latestVersion < env.createdVersion)
    (hcreate : env.createOk = true)
    (hhost : hostnamesCount = 0 ∨ env.setHostnamesOk = true)
    (hpersist : env.persistOk = true) :
    ∃ t1 t2 : List RulesCall,
      (updateRulesIfNeeded env (some d) hostnamesCount latestVersion).1 =
        t1 ++ RulesCall.persistLatestVersion env.createdVersion ::
          (t2 ++ [RulesCall.updatePropertyRules env.createdVersion etag]) ∧
      RulesCall.createPropertyVersion latestVersion ∈ t1 ∧
      latestVersion < env.createdVersion ∧
      (updateRulesIfNeeded env (some d) hostnamesCount latestVersion).2.2 =
        env.createdVersion := by
  have hcmp : compareRulesDeep d c = true := by
    simp [compareRulesDeep, hneq]
  have hrnu : rulesNeedUpdate (some d) cur = some true := by
    simp [rulesNeedUpdate, hnorm, hcmp]
  unfold updateRulesIfNeeded
  rw [if_neg (by simp [hval]), hget]
  simp only [hrnu, hprop, hpub, if_true]
  unfold UpdateProperty
  rw [hprop]
  simp only [hsync, hpub, hcreate, if_true, hpersist]
  by_cases hc0 : 0 < hostnamesCount
  · have hOk : env.setHostnamesOk = true := by
      rcases hhost with h0 | hOk
      · omega
      · exact hOk
    simp only [if_pos hc0, hOk, if_true]
    refine ⟨[RulesCall.getPropertyRules latestVersion,
             RulesCall.isVersionPublished latestVersion,
             RulesCall.getProperty,
             RulesCall.isVersionPublished latestVersion,
             RulesCall.createPropertyVersion latestVersion,
             RulesCall.setPropertyHostnames env.createdVersion],
           [RulesCall.setPhase PhaseUpdating "UpdatingPropertyRules"], ?_, ?_, hfresh, ?_⟩
    · simp
    · simp
    · simp
  · simp only [if_neg hc0]
    refine ⟨[RulesCall.getPropertyRules latestVersion,
             RulesCall.isVersionPublished latestVersion,
             RulesCall.getProperty,
             RulesCall.isVersionPublished latestVersion,
             RulesCall.createPropertyVersion latestVersion],
           [RulesCall.setPhase PhaseUpdating "UpdatingPropertyRules"], ?_, ?_, hfresh, ?_⟩
    · simp
    · simp
    · simp

/-- A minimal valid desired rule tree: the mandatory `default` top rule. -/
def demoRules : PropertyRules := {name := "default"}

/-- An environment whose latest version 3 is published on staging and whose
version clone comes back as 4. -/
def demoEnv : RulesEnv :=
  { property := some {latestVersion := 3, stagingVersion := 3, productionVersion := 0}
    getRulesResult := some (Json.null, "etag-a")
    createdVersion := 4 }

/-- Witness for C3: desired `default` rules against a `null` current tree on
a staging-published version 3; the run forks to version 4, persists it, and
writes the rules against 4. -/
theorem updateRulesIfNeeded_fork_on_published_witness :
    (validatePropertyRules (some demoRules) = true ∧
     normalizeCurrentRules Json.null = some (cleanRulesForComparison {}) ∧
     differNormalise demoRules ≠ differNormalise (cleanRulesForComparison {}) ∧
     (IsVersionPublished {latestVersion := 3, stagingVersion := 3, productionVersion := 0}
        3).1 = true) ∧
    (∃ t1 t2 : List RulesCall,
      (updateRulesIfNeeded demoEnv (some demoRules) 0 3).1 =
        t1 ++ RulesCall.persistLatestVersion demoEnv.createdVersion ::
          (t2 ++ [RulesCall.updatePropertyRules demoEnv.createdVersion "etag-a"]) ∧
      RulesCall.createPropertyVersion 3 ∈ t1 ∧
      (3 : Int) < demoEnv.createdVersion ∧
      (updateRulesIfNeeded demoEnv (some demoRules) 0 3).2.2 = demoEnv.createdVersion) := by
  have hs : ∀ s, canonJson (Json.str s) = Json.str s := fun s => by simp [canonJson]
  have hval : validatePropertyRules (some demoRules) = true := by decide
  have hnorm : normalizeCurrentRules Json.null = some (cleanRulesForComparison {}) := by
    simp [normalizeCurrentRules, canonJson, topUnmarshalRules]
  have hm1 : marshalRules (copyAndCleanRules demoRules) =
      Json.obj [("name", Json.str "default"), ("criteriaMustSatisfy", Json.str "all")] := by
    decide
  have hc1 : canonFields [("name", Json.str "default"), ("criteriaMustSatisfy", Json.str "all")] =
      [("criteriaMustSatisfy", Json.str "all"), ("name", Json.str "default")] := by
    simp only [canonFields, List.map, hs]
    decide
  have h1 : differNormalise demoRules =
      Json.obj [("criteriaMustSatisfy", Json.str "all"), ("name", Json.str "default")] := by
    simp only [differNormalise]
    rw [hm1, canonJson_obj, hc1]
    simp [normalizeMapForComparison, nmFields, nmValue]
  have hm2 : marshalRules (copyAndCleanRules (cleanRulesForComparison {})) =
      Json.obj [("name", Json.str ""), ("criteriaMustSatisfy", Json.str "all")] := by
    decide
  have hc2 : canonFields [("name", Json.str ""), ("criteriaMustSatisfy", Json.str "all")] =
      [("criteriaMustSatisfy", Json.str "all"), ("name", Json.str "")] := by
    simp only [canonFields, List.map, hs]
    decide
  have h2 : differNormalise (cleanRulesForComparison {}) =
      Json.obj [("criteriaMustSatisfy", Json.str "all")] := by
    simp only [differNormalise]
    rw [hm2, canonJson_obj, hc2]
    simp [normalizeMapForComparison, nmFields, nmValue]
  have hneq : differNormalise demoRules ≠ differNormalise (cleanRulesForComparison {}) := by
    rw [h1, h2]
    decide
  have hpub : (IsVersionPublished
      {latestVersion := 3, stagingVersion := 3, productionVersion := 0} 3).1 = true := by
    decide
  exact ⟨⟨hval, hnorm, hneq, hpub⟩,
    updateRulesIfNeeded_fork_on_published demoEnv demoRules 0 3 Json.null "etag-a"
      (cleanRulesForComparison {}) _ hval rfl hnorm hneq rfl rfl hpub (by decide) rfl
      (Or.inl rfl) rfl⟩

/-! ### The rules section of reconcileProperty (controllers)

For a resource with no activation configured: when spec.rules is set the
reconciler runs `updateRulesIfNeeded`; an error from it writes phase
`Error` with reason `FailedToUpdateRules` and requeues after 2 minutes,
otherwise the run falls through to the steady state (phase `Ready`, reason
`PropertyIsReady`, requeue after 30 minutes).  The middle component is the
(phase, reason) of the reconciler-level status write that follows the
section. -/
def reconcileRulesSection (env : RulesEnv) (specRules : Option PropertyRules)
    (hostnamesCount : Nat) (latestVersion : Int) :
    List RulesCall × (String × String) × CtrlResult :=
  match specRules with
  | none => ([], (PhaseReady, "PropertyIsReady"), { requeueAfterMinutes := 30 })
  | some d =>
    let out := updateRulesIfNeeded env (some d) hostnamesCount latestVersion
    match out.2.1 with
    | none => (out.1, (PhaseError, "FailedToUpdateRules"), { requeueAfterMinutes := 2 })
    | some _ => (out.1, (PhaseReady, "PropertyIsReady"), { requeueAfterMinutes := 30 })

/-- C7 counterexample: a rule tree whose top-level name is not `default`
fails validation; the reconciler then surfaces phase `Error` with reason
`FailedToUpdateRules` — not a `Ready=False` condition with reason
`InvalidRules` — and requeues after 2 minutes instead of the 30-minute
steady-state interval, on this and every following reconcile of the
unchanged spec. -/
theorem reconcileRules_invalid_counterexample :
    validatePropertyRules (some {name := "root"}) = false ∧
    (reconcileRulesSection {} (some {name := "root"}) 0 1).2.1 =
      (PhaseError, "FailedToUpdateRules") ∧
    (reconcileRulesSection {} (some {name := "root"}) 0 1).2.1.2 ≠ "InvalidRules" ∧
    (reconcileRulesSection {} (some {name := "root"}) 0 1).2.2.requeueAfterMinutes = 2 ∧
    (reconcileRulesSection {} (some {name := "root"}) 0 1).2.2.requeueAfterMinutes ≠ 30 := by
  refine ⟨rfl, rfl, ?_, rfl, ?_⟩ <;> decide

/-- C7 (amended): when `validatePropertyRules` rejects spec.rules the rules
write is skipped — no remote call is issued at all — and the reconciler
writes phase `Error` with reason `FailedToUpdateRules` and requeues after 2
minutes (an accelerated interval, not the 30-minute steady state). -/
theorem reconcileRules_on_validation_failure (env : RulesEnv) (d : PropertyRules)
    (hostnamesCount : Nat) (latestVersion : Int)
    (hinv : validatePropertyRules (some d) = false) :
    (reconcileRulesSection env (some d) hostnamesCount latestVersion).1 = [] ∧
    (reconcileRulesSection env (some d) hostnamesCount latestVersion).2.1 =
      (PhaseError, "FailedToUpdateRules") ∧
    (reconcileRulesSection env (some d) hostnamesCount latestVersion).2.2 =
      { requeue := false, requeueAfterMinutes := 2 } := by
  have h : updateRulesIfNeeded env (some d) hostnamesCount latestVersion =
      ([], none, latestVersion) := by
    unfold updateRulesIfNeeded
    rw [if_pos hinv]
  simp [reconcileRulesSection, h]

/-- Witness for the amended C7: the `root`-named tree is rejected and the
reconcile ends in the Error write with the accelerated requeue and an empty
remote trace. -/
theorem reconcileRules_on_validation_failure_witness :
    validatePropertyRules (some {name := "root"}) = false ∧
    ((reconcileRulesSection {} (some {name := "root"}) 0 1).1 = [] ∧
     (reconcileRulesSection {} (some {name := "root"}) 0 1).2.1 =
       (PhaseError, "FailedToUpdateRules") ∧
     (reconcileRulesSection {} (some {name := "root"}) 0 1).2.2 =
       { requeue := false, requeueAfterMinutes := 2 }) :=
  ⟨rfl, reconcileRules_on_validation_failure {} {name := "root"} 0 1 rfl⟩

/-! ### handleActivation (controllers, most evolved revision)

The activation handler consults the per-network activation bookkeeping in
the status, monitors an in-flight activation through `GetActivation`, and
otherwise decides whether to start a new activation; starting one writes
the Activating phase, calls `ActivateProperty` and persists the new
activation id, PENDING status and note. -/

structure Activation where
  propertyVersion : Int := 0
  status : String := ""
deriving DecidableEq, Repr

inductive ActivationCall where
  | getActivation (activationID : String)
  | statusWrite (phase reason : String)
  | activateProperty (version : Int) (network : String) (note : String)
  | persistStatus
deriving DecidableEq, Repr

/-- Remote outcomes: the `GetActivation` response (`none` is an error), the
activation id returned by `ActivateProperty` (`none` is an error) and the
`updateStatusWithRetry` outcome. -/
structure ActivationEnv where
  getActivation : Option Activation := none
  activationID : Option String := none
  persistOk : Bool := true

structure ActivationOutcome where
  started : Bool
  calls : List ActivationCall
  status : AkamaiPropertyStatus
  result : Except String CtrlResult
deriving Repr

/-- The per-network selectors at the top of `handleActivation`: for an
unknown network the three variables keep their zero values. -/
def currentActivationIDFor (network : String) (st : AkamaiPropertyStatus) : String :=
  if network = "STAGING" then st.stagingActivationID
  else if network = "PRODUCTION" then st.productionActivationID
  else ""

def currentActivationStatusFor (network : String) (st : AkamaiPropertyStatus) : String :=
  if network = "STAGING" then st.stagingActivationStatus
  else if network = "PRODUCTION" then st.productionActivationStatus
  else ""

def lastActivationNoteFor (network : String) (st : AkamaiPropertyStatus) : String :=
  if network = "STAGING" then st.stagingActivationNote
  else if network = "PRODUCTION" then st.productionActivationNote
  else ""

/-- The active-version selector of the non-in-flight branch: staging for
`STAGING`, production otherwise. -/
def currentActiveVersionFor (network : String) (st : AkamaiPropertyStatus) : Int :=
  if network = "STAGING" then st.stagingVersion else st.productionVersion

/-- `updateActivationStatus`: record the observed activation status for the
network and, when it is `ACTIVE`, the observed version. -/
def updateActivationStatus (st : AkamaiPropertyStatus) (network : String)
    (act : Activation) : AkamaiPropertyStatus :=
  if network = "STAGING" then
    let st1 := { st with stagingActivationStatus := act.status }
    if act.status = "ACTIVE" then { st1 with stagingVersion := act.propertyVersion } else st1
  else if network = "PRODUCTION" then
    let st1 := { st with productionActivationStatus := act.status }
    if act.status = "ACTIVE" then { st1 with productionVersion := act.propertyVersion } else st1
  else st

/-- The bottom of `handleActivation`: when `needsActivation` is set, write
the Activating phase, call `ActivateProperty`, record id/PENDING/note for
the network (production fields for any non-STAGING network) and persist;
otherwise return the empty result. -/
def finishActivation (env : ActivationEnv) (network note : String)
    (st : AkamaiPropertyStatus) (version : Int) (pre : List ActivationCall)
    (needs : Bool) : ActivationOutcome :=
  if needs then
    let pre1 := pre ++ [ActivationCall.statusWrite PhaseActivating "StartingActivation"]
    match env.activationID with
    | none =>
      { started := true, calls := pre1 ++ [ActivationCall.activateProperty version network note]
        status := st, result := .error "failed to activate property" }
    | some id =>
      let st1 :=
        if network = "STAGING" then
          { st with stagingActivationID := id, stagingActivationStatus := "PENDING",
                    stagingActivationNote := note }
        else
          { st with productionActivationID := id, productionActivationStatus := "PENDING",
                    productionActivationNote := note }
      { started := true
        calls := pre1 ++ [ActivationCall.activateProperty version network note,
                          ActivationCall.persistStatus]
        status := st1
        result := if env.persistOk then .ok { requeue := true, requeueAfterMinutes := 2 }
                  else .error "status update failed" }
  else
    { started := false, calls := pre, status := st, result := .ok {} }

/-- `handleActivation` (most evolved revision): no prior activation id
activates unconditionally; a recorded in-flight activation is re-read and
monitored (waiting on an older in-flight version, resuming on a completed
older version only if the note changed, monitoring/finishing/failing the
current version); otherwise a new activation starts iff the note changed,
or a newer version exists while no version is active yet. -/
def handleActivation (env : ActivationEnv) (network note : String)
    (st : AkamaiPropertyStatus) : ActivationOutcome :=
  let versionToActivate := st.latestVersion
  let currentActivationID := currentActivationIDFor network st
  let currentActivationStatus := currentActivationStatusFor network st
  let noteChanged : Bool := note != lastActivationNoteFor network st
  if currentActivationID = "" then
    finishActivation env network note st versionToActivate [] true
  else if currentActivationStatus = "PENDING" ∨ currentActivationStatus = "ACTIVATING" then
    match env.getActivation with
    | none =>
      { started := false, calls := [ActivationCall.getActivation currentActivationID]
        status := st, result := .ok { requeueAfterMinutes := 2 } }
    | some act =>
      let st1 := updateActivationStatus st network act
      let pre := [ActivationCall.getActivation currentActivationID]
      if act.propertyVersion < versionToActivate then
        if act.status = "PENDING" ∨ act.status = "ACTIVATING" then
          { started := false, calls := pre, status := st1,
            result := .ok { requeue := true, requeueAfterMinutes := 2 } }
        else
          finishActivation env network note st1 versionToActivate pre noteChanged
      else if act.propertyVersion = versionToActivate ∧
          (act.status = "PENDING" ∨ act.status = "ACTIVATING") then
        { started := false
          calls := pre ++ [ActivationCall.statusWrite PhaseActivating "ActivationInProgress"]
          status := st1, result := .ok { requeue := true, requeueAfterMinutes := 2 } }
      else if act.status = "ACTIVE" then
        { started := false, calls := pre, status := st1, result := .ok {} }
      else if act.status = "FAILED" then
        { started := false
          calls := pre ++ [ActivationCall.statusWrite PhaseError "ActivationFailed"]
          status := st1, result := .ok { requeueAfterMinutes := 5 } }
      else
        { started := false
          calls := pre ++ [ActivationCall.statusWrite PhaseActivating "ActivationInProgress"]
          status := st1, result := .ok { requeue := true, requeueAfterMinutes := 2 } }
  else
    let currentActiveVersion := currentActiveVersionFor network st
    finishActivation env network note st versionToActivate []
      (noteChanged ||
        (decide (currentActiveVersion < versionToActivate) &&
         decide (currentActiveVersion = 0)))

theorem finishActivation_started (env : ActivationEnv) (network note : String)
    (st : AkamaiPropertyStatus) (version : Int) (pre : List ActivationCall) (b : Bool) :
    (finishActivation env network note st version pre b).started = b := by
  unfold finishActivation
  cases b with
  | false => simp
  | true => cases env.activationID <;> simp

/-- A status with a completed (`ACTIVE`, not in-flight) staging activation
of the current latest version 3 under note `a`. -/
def caStatus : AkamaiPropertyStatus :=
  { propertyID := "prp_1", latestVersion := 3, stagingVersion := 3,
    stagingActivationID := "atv_1", stagingActivationStatus := "ACTIVE",
    stagingActivationNote := "a" }

/-- C1 counterexample: on STAGING with a recorded, not in-flight activation,
latest version 3 already active (active version 3 ≠ 0) and only the note
changed (`a` to `b`), `handleActivation` does start a new activation,
although the claimed condition — note changed AND (newer version OR active
version 0) — is false: a note change alone suffices in the code. -/
theorem handleActivation_claim_counterexample :
    currentActivationIDFor "STAGING" caStatus ≠ "" ∧
    currentActivationStatusFor "STAGING" caStatus ≠ "PENDING" ∧
    currentActivationStatusFor "STAGING" caStatus ≠ "ACTIVATING" ∧
    (handleActivation { activationID := some "atv_2" } "STAGING" "b" caStatus).started
      = true ∧
    ¬ (("b" : String) ≠ lastActivationNoteFor "STAGING" caStatus ∧
       (currentActiveVersionFor "STAGING" caStatus < caStatus.latestVersion ∨
        currentActiveVersionFor "STAGING" caStatus = 0)) := by
  refine ⟨?_, ?_, ?_, ?_, ?_⟩ <;> decide

/-- C1 (amended): with a recorded prior activation that is not in-flight
(status neither PENDING nor ACTIVATING), `handleActivation` starts a new
activation iff the spec note differs from the recorded note, OR a newer
version exists while the active version for the network is still 0; in
particular a note change alone does suffice, and a version change alone
suffices exactly in the initial (active version 0) case. -/
theorem handleActivation_start_iff (env : ActivationEnv) (network note : String)
    (st : AkamaiPropertyStatus)
    (hid : currentActivationIDFor network st ≠ "")
    (hp : currentActivationStatusFor network st ≠ "PENDING")
    (ha : currentActivationStatusFor network st ≠ "ACTIVATING") :
    (handleActivation env network note st).started = true ↔
      (note ≠ lastActivationNoteFor network st ∨
       (currentActiveVersionFor network st < st.latestVersion ∧
        currentActiveVersionFor network st = 0)) := by
  unfold handleActivation
  rw [if_neg hid, if_neg (not_or.mpr ⟨hp, ha⟩), finishActivation_started]
  simp [bne_iff_ne]

/-- Witness for the amended C1: the same completed-activation status with an
unchanged note and a non-zero active version starts nothing. -/
theorem handleActivation_start_iff_witness :
    (currentActivationIDFor "STAGING" caStatus ≠ "" ∧
     currentActivationStatusFor "STAGING" caStatus ≠ "PENDING" ∧
     currentActivationStatusFor "STAGING" caStatus ≠ "ACTIVATING") ∧
    (handleActivation {} "STAGING" "a" caStatus).started = false := by
  have h := handleActivation_start_iff {} "STAGING" "a" caStatus
    (by decide) (by decide) (by decide)
  refine ⟨⟨by decide, by decide, by decide⟩, Bool.eq_false_iff.mpr (fun hb => ?_)⟩
  exact absurd (h.mp hb) (by decide)

/-! ### Differ normal-form machinery: getField calculus -/

theorem getField_nil (k : String) : getField [] k = none := rfl

theorem getField_append (xs ys : List (String × Json)) (k : String) :
    getField (xs ++ ys) k = (getField ys k).or (getField xs k) := by
  unfold getField
  rw [List.reverse_append, List.find?_append]
  cases ys.reverse.find? (fun kv => kv.1 == k) <;>
    cases xs.reverse.find? (fun kv => kv.1 == k) <;> simp [Option.or]

theorem getField_singleton (k' : String) (v : Json) (k : String) :
    getField [(k', v)] k = if k' = k then some v else none := by
  unfold getField
  by_cases h : k' = k
  · subst h
    simp [List.find?]
  · have hb : (k' == k) = false := beq_eq_false_iff_ne.mpr h
    simp [List.find?, hb, h]

theorem getField_cons (kv : String × Json) (fs : List (String × Json)) (k : String) :
    getField (kv :: fs) k = (getField fs k).or (getField [kv] k) := by
  have : kv :: fs = [kv] ++ fs := rfl
  rw [this, getField_append]

theorem getField_isSome_iff (fs : List (String × Json)) (k : String) :
    (getField fs k).isSome ↔ k ∈ fs.map Prod.fst := by
  induction fs with
  | nil => simp [getField]
  | cons kv fs ih =>
    rw [getField_cons, getField_singleton]
    cases h : getField fs k with
    | some v =>
      have hk : k ∈ fs.map Prod.fst := ih.mp (by simp [h])
      simp [Option.or, hk]
    | none =>
      have hk : ¬ k ∈ fs.map Prod.fst := fun hm => by
        have := ih.mpr hm
        simp [h] at this
      by_cases he : kv.1 = k
      · simp [Option.or, he, hk]
      · have hne : ¬ k = kv.1 := fun hh => he hh.symm
        simp [Option.or, he, hk, hne]

theorem getField_map (fs : List (String × Json)) (g : Json → Json) (k : String) :
    getField (fs.map (fun kv => (kv.1, g kv.2))) k = (getField fs k).map g := by
  induction fs with
  | nil => rfl
  | cons kv fs ih =>
    rw [List.map_cons, getField_cons, getField_singleton, ih, getField_cons,
      getField_singleton]
    cases h : getField fs k with
    | some v => simp [Option.or]
    | none => by_cases he : kv.1 = k <;> simp [Option.or, he]

theorem getField_lastWins (fs : List (String × Json)) (k : String) :
    getField (lastWins fs) k = getField fs k := by
  induction fs with
  | nil => rfl
  | cons kv fs ih =>
    rw [lastWins_cons, getField_cons, getField_singleton]
    by_cases hmem : (lastWins fs).any (fun kv' => kv'.1 == kv.1) = true
    · rw [if_pos hmem]
      by_cases he : kv.1 = k
      · subst he
        obtain ⟨kv', hkv', hbe⟩ := List.any_eq_true.mp hmem
        have hkeq : kv'.1 = kv.1 := by simpa using hbe
        have hkey : kv.1 ∈ (lastWins fs).map Prod.fst := by
          rw [← hkeq]
          exact List.mem_map_of_mem Prod.fst hkv'
        have hsome := (getField_isSome_iff (lastWins fs) kv.1).mpr hkey
        rw [ih] at hsome
        cases hgf : getField fs kv.1 with
        | none => rw [hgf] at hsome; simp at hsome
        | some v => rw [ih, hgf]; simp [Option.or]
      · rw [if_neg he, ih]
        cases getField fs k <;> simp [Option.or]
    · rw [if_neg hmem, getField_cons, getField_singleton, ih]

theorem mem_of_getField_eq_some (fs : List (String × Json)) (k : String) (v : Json)
    (h : getField fs k = some v) : (k, v) ∈ fs := by
  unfold getField at h
  cases hf : fs.reverse.find? (fun kv => kv.1 == k) with
  | none => rw [hf] at h; simp at h
  | some kv =>
    rw [hf] at h
    have hmem := List.mem_of_find?_eq_some hf
    have hkey := List.find?_some hf
    rcases kv with ⟨k', v'⟩
    simp at hkey
    simp at h
    rw [← hkey, ← h]
    exact List.mem_reverse.mp hmem

theorem getField_eq_some_iff (fs : List (String × Json)) (k : String) (v : Json)
    (hnodup : (fs.map Prod.fst).Nodup) :
    getField fs k = some v ↔ (k, v) ∈ fs := by
  constructor
  · exact mem_of_getField_eq_some fs k v
  · intro hmem
    have hsome : (getField fs k).isSome := (getField_isSome_iff fs k).mpr
      (List.mem_map_of_mem Prod.fst hmem)
    cases hf : getField fs k with
    | none => rw [hf] at hsome; simp at hsome
    | some w =>
      have hw := mem_of_getField_eq_some fs k w hf
      have := List.inj_on_of_nodup_map hnodup hw hmem rfl
      simp at this
      rw [this]

theorem getField_perm (fs gs : List (String × Json)) (hperm : fs.Perm gs)
    (hnodup : (fs.map Prod.fst).Nodup) (k : String) :
    getField fs k = getField gs k := by
  have hnodup' : (gs.map Prod.fst).Nodup := ((hperm.map Prod.fst).nodup_iff).mp hnodup
  cases hf : getField fs k with
  | some v =>
    have hmem := mem_of_getField_eq_some fs k v hf
    exact ((getField_eq_some_iff gs k v hnodup').mpr (hperm.mem_iff.mp hmem)).symm
  | none =>
    cases hg : getField gs k with
    | none => rfl
    | some w =>
      have hmem := mem_of_getField_eq_some gs k w hg
      have := (getField_eq_some_iff fs k w hnodup).mpr (hperm.mem_iff.mpr hmem)
      rw [hf] at this
      exact absurd this (by simp)

/-- Field lookup through the Go-map canonicalisation: the canonical object
has the same fields, with canonicalised values. -/
theorem getField_canonFields (fs : List (String × Json)) (k : String) :
    getField (canonFields fs) k = (getField fs k).map canonJson := by
  unfold canonFields sortByKey
  rw [getField_perm _ _ (List.perm_insertionSort keyLE _)
    (((List.perm_insertionSort keyLE _).map Prod.fst).nodup_iff.mpr
      (lastWins_keys_nodup _)) k]
  rw [getField_lastWins, getField_map]

theorem getField_ite (c : Prop) [Decidable c] (l1 l2 : List (String × Json)) (k : String) :
    getField (if c then l1 else l2) k = if c then getField l1 k else getField l2 k := by
  split_ifs <;> rfl

theorem canonJson_null : canonJson .null = .null := by simp [canonJson]

theorem canonJson_boolc (b : Bool) : canonJson (.bool b) = .bool b := by simp [canonJson]

theorem canonJson_numc (n : String) : canonJson (.num n) = .num n := by simp [canonJson]

theorem canonJson_strc (s : String) : canonJson (.str s) = .str s := by simp [canonJson]

/-! The marshalled field lists, named so that field lookups can be computed. -/

def marshalItemFields (it : RuleItem) : List (String × Json) :=
  [("name", .str it.name)]
    ++ (if it.uuid = "" then [] else [("uuid", .str it.uuid)])
    ++ (match it.options with | none => [] | some v => [("options", v)])

theorem marshalItem_def (it : RuleItem) : marshalItem it = .obj (marshalItemFields it) := rfl

def marshalVariableFields (v : RuleVariable) : List (String × Json) :=
  [("name", .str v.name), ("value", .str v.value)]
    ++ (if v.description = "" then [] else [("description", .str v.description)])
    ++ [("hidden", .bool v.hidden), ("sensitive", .bool v.sensitive)]

theorem marshalVariable_def (v : RuleVariable) :
    marshalVariable v = .obj (marshalVariableFields v) := rfl

def marshalRulesFields (p : PropertyRules) : List (String × Json) :=
  [("name", .str p.name)]
    ++ (if p.criteriaMustSatisfy = "" then []
        else [("criteriaMustSatisfy", .str p.criteriaMustSatisfy)])
    ++ (if p.comments = "" then [] else [("comments", .str p.comments)])
    ++ (if p.uuid = "" then [] else [("uuid", .str p.uuid)])
    ++ (if p.criteria = [] then [] else [("criteria", .arr (p.criteria.map marshalItem))])
    ++ (if p.behaviors = [] then [] else [("behaviors", .arr (p.behaviors.map marshalItem))])
    ++ (if p.vars = [] then []
        else [("variables", .arr (p.vars.map marshalVariable))])
    ++ (match p.options with | none => [] | some v => [("options", v)])
    ++ (match p.customOverride with | none => [] | some v => [("customOverride", v)])
    ++ (if p.children = [] then [] else [("children", .arr p.children)])

theorem marshalRules_def (p : PropertyRules) :
    marshalRules p = .obj (marshalRulesFields p) := rfl

theorem getField_cons2 (kv : String × Json) (fs : List (String × Json)) (k : String) :
    getField (kv :: fs) k = (getField fs k).or (if kv.1 = k then some kv.2 else none) := by
  rw [getField_cons, getField_singleton]

theorem gfi_name (it : RuleItem) :
    getField (marshalItemFields it) "name" = some (.str it.name) := by
  unfold marshalItemFields
  cases it.options <;>
    simp [getField_append, getField_ite, getField_cons2, getField_nil,
      Option.or_none, Option.none_or]

theorem gfi_uuid (it : RuleItem) :
    getField (marshalItemFields it) "uuid" =
      if it.uuid = "" then none else some (.str it.uuid) := by
  unfold marshalItemFields
  cases it.options <;>
    simp [getField_append, getField_ite, getField_cons2, getField_nil,
      Option.or_none, Option.none_or]

theorem gfi_options (it : RuleItem) :
    getField (marshalItemFields it) "options" = it.options := by
  unfold marshalItemFields
  cases it.options <;>
    simp [getField_append, getField_ite, getField_cons2, getField_nil,
      Option.or_none, Option.none_or]

theorem gfv_name (v : RuleVariable) :
    getField (marshalVariableFields v) "name" = some (.str v.name) := by
  unfold marshalVariableFields
  simp [getField_append, getField_ite, getField_cons2, getField_nil,
    Option.or_none, Option.none_or]

theorem gfv_value (v : RuleVariable) :
    getField (marshalVariableFields v) "value" = some (.str v.value) := by
  unfold marshalVariableFields
  simp [getField_append, getField_ite, getField_cons2, getField_nil,
    Option.or_none, Option.none_or]

theorem gfv_description (v : RuleVariable) :
    getField (marshalVariableFields v) "description" =
      if v.description = "" then none else some (.str v.description) := by
  unfold marshalVariableFields
  simp [getField_append, getField_ite, getField_cons2, getField_nil,
    Option.or_none, Option.none_or]

theorem gfv_hidden (v : RuleVariable) :
    getField (marshalVariableFields v) "hidden" = some (.bool v.hidden) := by
  unfold marshalVariableFields
  simp [getField_append, getField_ite, getField_cons2, getField_nil,
    Option.or_none, Option.none_or]

theorem gfv_sensitive (v : RuleVariable) :
    getField (marshalVariableFields v) "sensitive" = some (.bool v.sensitive) := by
  unfold marshalVariableFields
  simp [getField_append, getField_ite, getField_cons2, getField_nil,
    Option.or_none, Option.none_or]

theorem gfr_name (p : PropertyRules) :
    getField (marshalRulesFields p) "name" = some (.str p.name) := by
  unfold marshalRulesFields
  cases p.options <;> cases p.customOverride <;>
    simp [getField_append, getField_ite, getField_cons2, getField_nil,
      Option.or_none, Option.none_or]

theorem gfr_cms (p : PropertyRules) :
    getField (marshalRulesFields p) "criteriaMustSatisfy" =
      if p.criteriaMustSatisfy = "" then none
      else some (.str p.criteriaMustSatisfy) := by
  unfold marshalRulesFields
  cases p.options <;> cases p.customOverride <;>
    simp [getField_append, getField_ite, getField_cons2, getField_nil,
      Option.or_none, Option.none_or]

theorem gfr_comments (p : PropertyRules) :
    getField (marshalRulesFields p) "comments" =
      if p.comments = "" then none else some (.str p.comments) := by
  unfold marshalRulesFields
  cases p.options <;> cases p.customOverride <;>
    simp [getField_append, getField_ite, getField_cons2, getField_nil,
      Option.or_none, Option.none_or]

theorem gfr_uuid (p : PropertyRules) :
    getField (marshalRulesFields p) "uuid" =
      if p.uuid = "" then none else some (.str p.uuid) := by
  unfold marshalRulesFields
  cases p.options <;> cases p.customOverride <;>
    simp [getField_append, getField_ite, getField_cons2, getField_nil,
      Option.or_none, Option.none_or]

theorem gfr_criteria (p : PropertyRules) :
    getField (marshalRulesFields p) "criteria" =
      if p.criteria = [] then none
      else some (.arr (p.criteria.map marshalItem)) := by
  unfold marshalRulesFields
  cases p.options <;> cases p.customOverride <;>
    simp [getField_append, getField_ite, getField_cons2, getField_nil,
      Option.or_none, Option.none_or]

theorem gfr_behaviors (p : PropertyRules) :
    getField (marshalRulesFields p) "behaviors" =
      if p.behaviors = [] then none
      else some (.arr (p.behaviors.map marshalItem)) := by
  unfold marshalRulesFields
  cases p.options <;> cases p.customOverride <;>
    simp [getField_append, getField_ite, getField_cons2, getField_nil,
      Option.or_none, Option.none_or]

theorem gfr_variables (p : PropertyRules) :
    getField (marshalRulesFields p) "variables" =
      if p.vars = [] then none
      else some (.arr (p.vars.map marshalVariable)) := by
  unfold marshalRulesFields
  cases p.options <;> cases p.customOverride <;>
    simp [getField_append, getField_ite, getField_cons2, getField_nil,
      Option.or_none, Option.none_or]

theorem gfr_options (p : PropertyRules) :
    getField (marshalRulesFields p) "options" = p.options := by
  unfold marshalRulesFields
  cases p.options <;> cases p.customOverride <;>
    simp [getField_append, getField_ite, getField_cons2, getField_nil,
      Option.or_none, Option.none_or]

theorem gfr_customOverride (p : PropertyRules) :
    getField (marshalRulesFields p) "customOverride" = p.customOverride := by
  unfold marshalRulesFields
  cases p.options <;> cases p.customOverride <;>
    simp [getField_append, getField_ite, getField_cons2, getField_nil,
      Option.or_none, Option.none_or]

theorem gfr_children (p : PropertyRules) :
    getField (marshalRulesFields p) "children" =
      if p.children = [] then none else some (.arr p.children) := by
  unfold marshalRulesFields
  cases p.options <;> cases p.customOverride <;>
    simp [getField_append, getField_ite, getField_cons2, getField_nil,
      Option.or_none, Option.none_or]

theorem readString_emit (s : String) :
    readString (if s = "" then none else some (.str s)) = some s := by
  split_ifs with h
  · simp [readString, h]
  · rfl

theorem readList_emit (l : List Json) :
    readList (if l = [] then none else some (.arr l)) = some l := by
  split_ifs with h
  · simp [readList, h]
  · rfl

theorem mapM_of_comp {α β γ : Type} (f : α → β) (g : β → Option γ) (h : α → γ)
    (l : List α) (H : ∀ a ∈ l, g (f a) = some (h a)) :
    (l.map f).mapM g = some (l.map h) := by
  induction l with
  | nil => rfl
  | cons a l ih =>
    have ha := H a (by simp)
    have hl := ih (fun x hx => H x (by simp [hx]))
    rw [List.map_cons, List.map_cons, List.mapM_cons, ha, hl]
    rfl

/-- What the Go decoder makes of a freshly marshalled struct: everything
returns verbatim, except that a raw carrier holding the document `null`
comes back as an absent carrier (`RawExtension` keeps no bytes for
`null`). -/
def rtItem (it : RuleItem) : RuleItem :=
  { it with options := readRaw it.options }

def rt (p : PropertyRules) : PropertyRules :=
  { p with criteria := p.criteria.map rtItem, behaviors := p.behaviors.map rtItem,
           options := readRaw p.options, customOverride := readRaw p.customOverride }

theorem unmarshalItem_marshalItem (it : RuleItem) :
    unmarshalItem (marshalItem it) = some (rtItem it) := by
  rw [marshalItem_def]
  unfold unmarshalItem
  dsimp only
  rw [gfi_name, gfi_uuid, gfi_options, readString_emit]
  simp [readString, rtItem]

theorem unmarshalVariable_marshalVariable (v : RuleVariable) :
    unmarshalVariable (marshalVariable v) = some v := by
  rw [marshalVariable_def]
  unfold unmarshalVariable
  dsimp only
  rw [gfv_name, gfv_value, gfv_description, gfv_hidden, gfv_sensitive, readString_emit]
  simp [readString, readBool]

/-- Decoder round-trip: unmarshalling a marshalled rule tree returns it,
with `null`-holding raw carriers normalised to absent ones. -/
theorem unmarshalRules_marshalRules (p : PropertyRules) :
    unmarshalRules (marshalRules p) = some (rt p) := by
  rw [marshalRules_def]
  unfold unmarshalRules
  dsimp only
  rw [gfr_name, gfr_cms, gfr_comments, gfr_uuid, gfr_criteria, gfr_behaviors,
    gfr_variables, gfr_options, gfr_customOverride, gfr_children]
  rw [readList_emit]
  have hcrit : readList (if p.criteria = [] then none
      else some (.arr (p.criteria.map marshalItem))) = some (p.criteria.map marshalItem) := by
    split_ifs with h
    · simp [readList, h]
    · rfl
  have hbeh : readList (if p.behaviors = [] then none
      else some (.arr (p.behaviors.map marshalItem))) = some (p.behaviors.map marshalItem) := by
    split_ifs with h
    · simp [readList, h]
    · rfl
  have hvar : readList (if p.vars = [] then none
      else some (.arr (p.vars.map marshalVariable))) = some (p.vars.map marshalVariable) := by
    split_ifs with h
    · simp [readList, h]
    · rfl
  rw [hcrit, hbeh, hvar, readString_emit, readString_emit, readString_emit]
  simp only [readString, Option.bind_eq_bind, Option.some_bind]
  rw [mapM_of_comp marshalItem unmarshalItem rtItem p.criteria
        (fun a _ => unmarshalItem_marshalItem a),
      mapM_of_comp marshalItem unmarshalItem rtItem p.behaviors
        (fun a _ => unmarshalItem_marshalItem a),
      mapM_of_comp marshalVariable unmarshalVariable id p.vars
        (fun a _ => unmarshalVariable_marshalVariable a)]
  simp [rt]

theorem map_bind_opt {α β γ : Type} (o : Option α) (f : α → β) (g : β → Option γ) :
    (o.map f).bind g = o.bind (fun a => g (f a)) := by
  cases o <;> rfl

theorem readString_map_canon (o : Option Json) :
    readString (o.map canonJson) = readString o := by
  cases o with
  | none => rfl
  | some v =>
    cases v <;> simp [readString, canonJson_null, canonJson_strc, canonJson_boolc,
      canonJson_numc, canonJson_obj, canonJson_arr]

theorem readBool_map_canon (o : Option Json) :
    readBool (o.map canonJson) = readBool o := by
  cases o with
  | none => rfl
  | some v =>
    cases v <;> simp [readBool, canonJson_null, canonJson_strc, canonJson_boolc,
      canonJson_numc, canonJson_obj, canonJson_arr]

theorem readRaw_map_canon (o : Option Json) :
    readRaw (o.map canonJson) = (readRaw o).map canonJson := by
  cases o with
  | none => rfl
  | some v =>
    cases v <;> simp [readRaw, canonJson_null, canonJson_strc, canonJson_boolc,
      canonJson_numc, canonJson_obj, canonJson_arr]

theorem readList_map_canon (o : Option Json) :
    readList (o.map canonJson) = (readList o).map (List.map canonJson) := by
  cases o with
  | none => rfl
  | some v =>
    cases v <;> simp [readList, canonJson_null, canonJson_strc, canonJson_boolc,
      canonJson_numc, canonJson_obj, canonJson_arr]

/-- Decoding after Go-map canonicalisation: the struct comes back with every
raw carrier canonicalised. -/
def katItem (it : RuleItem) : RuleItem :=
  { it with options := it.options.map canonJson }

def kat (p : PropertyRules) : PropertyRules :=
  { p with criteria := p.criteria.map katItem, behaviors := p.behaviors.map katItem,
           options := p.options.map canonJson,
           customOverride := p.customOverride.map canonJson,
           children := p.children.map canonJson }

theorem unmarshalItem_canon (j : Json) :
    unmarshalItem (canonJson j) = (unmarshalItem j).map katItem := by
  cases j with
  | obj fs =>
    rw [canonJson_obj]
    unfold unmarshalItem
    dsimp only
    simp only [getField_canonFields, readString_map_canon, readRaw_map_canon]
    cases readString (getField fs "name") <;> cases readString (getField fs "uuid") <;>
      simp [katItem, Option.bind_eq_bind, Option.some_bind]
  | null => rw [canonJson_null]; rfl
  | bool b => rw [canonJson_boolc]; rfl
  | num n => rw [canonJson_numc]; rfl
  | str s => rw [canonJson_strc]; rfl
  | arr xs => rw [canonJson_arr]; rfl

theorem unmarshalVariable_canon (j : Json) :
    unmarshalVariable (canonJson j) = unmarshalVariable j := by
  cases j with
  | obj fs =>
    rw [canonJson_obj]
    unfold unmarshalVariable
    dsimp only
    simp only [getField_canonFields, readString_map_canon, readBool_map_canon]
  | null => rw [canonJson_null]
  | bool b => rw [canonJson_boolc]
  | num n => rw [canonJson_numc]
  | str s => rw [canonJson_strc]
  | arr xs => rw [canonJson_arr]; rfl

theorem mapM_map_congr {α β : Type} (g : α → Option β) (k : α → α) (kb : β → β)
    (l : List α) (H : ∀ a, g (k a) = (g a).map kb) :
    (l.map k).mapM g = (l.mapM g).map (List.map kb) := by
  induction l with
  | nil => rfl
  | cons a l ih =>
    rw [List.map_cons, List.mapM_cons, List.mapM_cons, H a, ih]
    cases g a <;> cases l.mapM g <;> rfl

theorem mapM_map_congr_id {α β : Type} (g : α → Option β) (k : α → α)
    (l : List α) (H : ∀ a, g (k a) = g a) :
    (l.map k).mapM g = l.mapM g := by
  induction l with
  | nil => rfl
  | cons a l ih => rw [List.map_cons, List.mapM_cons, List.mapM_cons, H a, ih]

theorem mapM_unmarshalItem_canon (l : List Json) :
    (l.map canonJson).mapM unmarshalItem =
      (l.mapM unmarshalItem).map (List.map katItem) :=
  mapM_map_congr unmarshalItem canonJson katItem l unmarshalItem_canon

theorem mapM_unmarshalVariable_canon (l : List Json) :
    (l.map canonJson).mapM unmarshalVariable = l.mapM unmarshalVariable :=
  mapM_map_congr_id unmarshalVariable canonJson l unmarshalVariable_canon

set_option maxHeartbeats 1600000 in
/-- Decoding a canonicalised rules document: the decode succeeds exactly
when the original does, returning the struct with canonicalised raw
carriers. -/
theorem unmarshalRules_canon (j : Json) :
    unmarshalRules (canonJson j) = (unmarshalRules j).map kat := by
  cases j with
  | obj fs =>
    rw [canonJson_obj]
    unfold unmarshalRules
    dsimp only
    simp only [getField_canonFields, readString_map_canon, readList_map_canon,
      readRaw_map_canon, Option.bind_eq_bind, map_bind_opt, Option.map_bind,
      mapM_unmarshalItem_canon, mapM_unmarshalVariable_canon]
    simp [kat]
  | null => rw [canonJson_null]; rfl
  | bool b => rw [canonJson_boolc]; rfl
  | num n => rw [canonJson_numc]; rfl
  | str s => rw [canonJson_strc]; rfl
  | arr xs => rw [canonJson_arr]; rfl

/-! ### Strict idempotence of the clean pipeline -/

theorem readRaw_ne_some_null (o : Option Json) : readRaw o ≠ some .null := by
  cases o with
  | none => simp [readRaw]
  | some v => cases v <;> simp [readRaw]

theorem readRaw_readRaw (o : Option Json) : readRaw (readRaw o) = readRaw o := by
  cases o with
  | none => rfl
  | some v => cases v <;> rfl

theorem cleanOptionsRoot_idem (o : Option Json) :
    cleanOptionsRoot (cleanOptionsRoot o) = cleanOptionsRoot o := by
  cases o with
  | none => rfl
  | some v =>
    cases v with
    | obj fs => cases fs <;> rfl
    | null => rfl
    | bool b => rfl
    | num n => rfl
    | str s => rfl
    | arr xs => rfl

theorem readRaw_cleanOptionsRoot (o : Option Json) :
    readRaw (cleanOptionsRoot o) = cleanOptionsRoot o := by
  cases o with
  | none => rfl
  | some v =>
    cases v with
    | obj fs => cases fs <;> rfl
    | null => rfl
    | bool b => rfl
    | num n => rfl
    | str s => rfl
    | arr xs => rfl

theorem cleanCustomOverride_idem (o : Option Json) :
    cleanCustomOverride (cleanCustomOverride o) = cleanCustomOverride o := by
  cases o with
  | none => rfl
  | some v => cases v <;> rfl

theorem readRaw_cleanCustomOverride (o : Option Json) :
    readRaw (cleanCustomOverride o) = cleanCustomOverride o := by
  cases o with
  | none => rfl
  | some v => cases v <;> rfl

theorem nomlike_idem {α : Type} (q1 q2 : α → Bool) (l : List α) :
    ((((l.filter q1).filter q2).filter q1).filter q2) = (l.filter q1).filter q2 := by
  have h1 : ((l.filter q1).filter q2).filter q1 = (l.filter q1).filter q2 :=
    List.filter_eq_self.mpr (fun a ha => List.of_mem_filter (List.mem_of_mem_filter ha))
  rw [h1]
  exact List.filter_eq_self.mpr (fun a ha => List.of_mem_filter ha)

theorem normalizeOptionsMap_idem (g : List (String × Json)) :
    normalizeOptionsMap (normalizeOptionsMap g) = normalizeOptionsMap g := by
  simp only [normalizeOptionsMap]
  exact nomlike_idem _ _ g

/-- `IsCanon` survives any filtering of an object's fields. -/
theorem isCanon_obj_filter (g : List (String × Json)) (q : String × Json → Bool)
    (hc : IsCanon (.obj g)) : IsCanon (.obj (g.filter q)) := by
  cases hc with
  | obj _ hvals hnodup hsorted =>
    refine .obj _ (fun kv hkv => hvals kv (List.mem_of_mem_filter hkv)) ?_ ?_
    · exact List.Nodup.sublist ((List.filter_sublist _).map Prod.fst) hnodup
    · exact List.Pairwise.sublist (List.filter_sublist _) hsorted

theorem isCanon_obj_nom (g : List (String × Json)) (hc : IsCanon (.obj g)) :
    IsCanon (.obj (normalizeOptionsMap g)) := by
  unfold normalizeOptionsMap
  exact isCanon_obj_filter _ _ (isCanon_obj_filter _ _ hc)

theorem cleanItemOptions_obj (fs : List (String × Json)) :
    cleanItemOptions (some (.obj fs)) =
      some (.obj (normalizeOptionsMap (canonFields fs))) := by
  simp [cleanItemOptions, canonJson_obj]

theorem cleanItemOptions_idem (o : Option Json) (ho : o ≠ some .null) :
    cleanItemOptions (cleanItemOptions o) = cleanItemOptions o := by
  cases o with
  | none => rfl
  | some v =>
    cases v with
    | null => exact absurd rfl ho
    | obj fs =>
      rw [cleanItemOptions_obj]
      have hcanon : IsCanon (.obj (normalizeOptionsMap (canonFields fs))) := by
        apply isCanon_obj_nom
        have := isCanon_canonJson (.obj fs)
        rwa [canonJson_obj] at this
      rw [cleanItemOptions_obj]
      have hfix : canonFields (normalizeOptionsMap (canonFields fs)) =
          normalizeOptionsMap (canonFields fs) := by
        have := canonJson_of_isCanon _ hcanon
        rw [canonJson_obj] at this
        exact Json.obj.inj this
      rw [hfix, normalizeOptionsMap_idem]
    | bool b => rfl
    | num n => rfl
    | str s => rfl
    | arr xs => rfl

theorem readRaw_cleanItemOptions (o : Option Json) (ho : o ≠ some .null) :
    readRaw (cleanItemOptions o) = cleanItemOptions o := by
  cases o with
  | none => rfl
  | some v =>
    cases v with
    | null => exact absurd rfl ho
    | obj fs =>
      rw [cleanItemOptions_obj]
      rfl
    | bool b => rfl
    | num n => rfl
    | str s => rfl
    | arr xs => rfl

theorem mapM_mem_inv {α β : Type} (g : α → Option β) (l : List α) (l' : List β)
    (h : l.mapM g = some l') : ∀ b ∈ l', ∃ a ∈ l, g a = some b := by
  induction l generalizing l' with
  | nil =>
    have h2 : (some [] : Option (List β)) = some l' := h
    injection h2 with h3
    subst h3
    simp
  | cons a l ih =>
    rw [List.mapM_cons] at h
    cases hga : g a with
    | none => rw [hga] at h; simp at h
    | some b0 =>
      rw [hga] at h
      cases hl : l.mapM g with
      | none => rw [hl] at h; simp at h
      | some bs =>
        rw [hl] at h
        simp at h
        subst h
        intro b hb
        rcases List.mem_cons.mp hb with hb | hb
        · exact ⟨a, List.mem_cons_self a l, by rw [hga, hb]⟩
        · obtain ⟨a', ha', hg⟩ := ih bs hl b hb
          exact ⟨a', List.mem_cons_of_mem a ha', hg⟩

theorem unmarshalItem_options_readRaw (j : Json) (it : RuleItem)
    (h : unmarshalItem j = some it) : ∃ o, it.options = readRaw o := by
  cases j with
  | obj fs =>
    simp only [unmarshalItem, Option.bind_eq_bind, Option.bind_eq_some,
      Option.some.injEq] at h
    obtain ⟨name, -, uuid, -, hit⟩ := h
    exact ⟨getField fs "options", by rw [← hit]⟩
  | null => simp [unmarshalItem] at h
  | bool b => simp [unmarshalItem] at h
  | num n => simp [unmarshalItem] at h
  | str s => simp [unmarshalItem] at h
  | arr xs => simp [unmarshalItem] at h

theorem decoded_item_options_ne_null (j : Json) (it : RuleItem)
    (h : unmarshalItem j = some it) : it.options ≠ some .null := by
  obtain ⟨o, ho⟩ := unmarshalItem_options_readRaw j it h
  rw [ho]
  exact readRaw_ne_some_null o

/-- Items of a decoded rule tree never carry a `null` options document: the
decoder normalises those to absent carriers. -/
theorem decoded_items_ne_null (c : Json) (q : PropertyRules)
    (h : unmarshalRules c = some q) :
    (∀ it ∈ q.criteria, it.options ≠ some .null) ∧
    (∀ it ∈ q.behaviors, it.options ≠ some .null) := by
  cases c with
  | obj fs =>
    simp only [unmarshalRules, Option.bind_eq_bind, Option.bind_eq_some,
      Option.some.injEq] at h
    obtain ⟨name, -, cms, -, comments, -, uuid, -, critJs, -, criteria, hcrit, behJs, -,
      behaviors, hbeh, varJs, -, vars, -, children, -, hp⟩ := h
    constructor
    · intro it hit
      rw [← hp] at hit
      obtain ⟨a, -, ha⟩ := mapM_mem_inv unmarshalItem critJs criteria hcrit it hit
      exact decoded_item_options_ne_null a it ha
    · intro it hit
      rw [← hp] at hit
      obtain ⟨a, -, ha⟩ := mapM_mem_inv unmarshalItem behJs behaviors hbeh it hit
      exact decoded_item_options_ne_null a it ha
  | null => simp [unmarshalRules] at h
  | bool b => simp [unmarshalRules] at h
  | num n => simp [unmarshalRules] at h
  | str s => simp [unmarshalRules] at h
  | arr xs => simp [unmarshalRules] at h

theorem cleanCriteria_idem (it : RuleItem) (ho : it.options ≠ some .null) :
    cleanCriteriaForComparison (cleanCriteriaForComparison it) =
      cleanCriteriaForComparison it := by
  unfold cleanCriteriaForComparison
  simp [cleanItemOptions_idem it.options ho]

theorem cleanBehavior_idem (it : RuleItem) (ho : it.options ≠ some .null) :
    cleanBehaviorForComparison (cleanBehaviorForComparison it) =
      cleanBehaviorForComparison it := by
  unfold cleanBehaviorForComparison
  simp [cleanItemOptions_idem it.options ho]

theorem rtItem_cleanCriteria (it : RuleItem) (ho : it.options ≠ some .null) :
    rtItem (cleanCriteriaForComparison it) = cleanCriteriaForComparison it := by
  unfold rtItem cleanCriteriaForComparison
  simp [readRaw_cleanItemOptions it.options ho]

theorem rtItem_cleanBehavior (it : RuleItem) (ho : it.options ≠ some .null) :
    rtItem (cleanBehaviorForComparison it) = cleanBehaviorForComparison it := by
  unfold rtItem cleanBehaviorForComparison
  simp [readRaw_cleanItemOptions it.options ho]

/-- The decoder round-trip is transparent on a cleaned tree: every carrier a
clean pass produces survives marshal/unmarshal unchanged. -/
theorem rt_cleanRules (q : PropertyRules)
    (hc : ∀ it ∈ q.criteria, it.options ≠ some .null)
    (hb : ∀ it ∈ q.behaviors, it.options ≠ some .null) :
    rt (cleanRulesForComparison q) = cleanRulesForComparison q := by
  have h1 : (cleanRulesForComparison q).criteria.map rtItem =
      (cleanRulesForComparison q).criteria := by
    show (q.criteria.map cleanCriteriaForComparison).map rtItem =
      q.criteria.map cleanCriteriaForComparison
    rw [List.map_map]
    exact List.map_congr_left (fun it hit => rtItem_cleanCriteria it (hc it hit))
  have h2 : (cleanRulesForComparison q).behaviors.map rtItem =
      (cleanRulesForComparison q).behaviors := by
    show (q.behaviors.map cleanBehaviorForComparison).map rtItem =
      q.behaviors.map cleanBehaviorForComparison
    rw [List.map_map]
    exact List.map_congr_left (fun it hit => rtItem_cleanBehavior it (hb it hit))
  have h3 : readRaw (cleanRulesForComparison q).options =
      (cleanRulesForComparison q).options := readRaw_cleanOptionsRoot q.options
  have h4 : readRaw (cleanRulesForComparison q).customOverride =
      (cleanRulesForComparison q).customOverride := readRaw_cleanCustomOverride q.customOverride
  unfold rt
  rw [h1, h2, h3, h4]

theorem cms_idem (s : String) :
    (if (if s = "" then "all" else s) = "" then "all"
     else (if s = "" then "all" else s)) = (if s = "" then "all" else s) := by
  by_cases h : s = "" <;> simp [h]

/-- Cleaning a decoded rule tree is strictly idempotent. -/
theorem cleanRules_idem_of_decoded :
    ∀ (n : Nat) (c : Json) (q : PropertyRules), sizeOf c ≤ n →
      unmarshalRules c = some q →
      cleanRulesForComparison (cleanRulesForComparison q) = cleanRulesForComparison q := by
  intro n
  induction n with
  | zero =>
    intro c q hle hdec
    cases c <;> simp at hle
  | succ n ih =>
    intro c q hle hdec
    obtain ⟨hcn, hbn⟩ := decoded_items_ne_null c q hdec
    have hchild : ∀ c' ∈ q.children,
        cleanChildJson (cleanChildJson c') = cleanChildJson c' := by
      intro c' hc'
      cases h' : unmarshalRules c' with
      | none =>
        have hfix : cleanChildJson c' = c' := by rw [cleanChildJson_eq, h']
        rw [hfix]
        exact hfix
      | some q' =>
        have h1 : cleanChildJson c' = marshalRules (cleanRulesForComparison q') := by
          rw [cleanChildJson_eq, h']
        rw [h1, cleanChildJson_eq, unmarshalRules_marshalRules]
        obtain ⟨hcn', hbn'⟩ := decoded_items_ne_null c' q' h'
        rw [rt_cleanRules q' hcn' hbn']
        dsimp only
        have hsz : sizeOf c' ≤ n := by
          have := sizeOf_child_lt c q c' hdec hc'
          omega
        rw [ih c' q' hsz h']
    unfold cleanRulesForComparison
    dsimp only
    congr 1
    · exact cms_idem q.criteriaMustSatisfy
    · rw [List.map_map]
      exact List.map_congr_left (fun it hit => cleanCriteria_idem it (hcn it hit))
    · rw [List.map_map]
      exact List.map_congr_left (fun it hit => cleanBehavior_idem it (hbn it hit))
    · exact cleanOptionsRoot_idem q.options
    · exact cleanCustomOverride_idem q.customOverride
    · rw [List.map_map]
      exact List.map_congr_left hchild

theorem copyAndCleanRules_eq (p : PropertyRules) :
    copyAndCleanRules p = cleanRulesForComparison (rt p) := by
  unfold copyAndCleanRules
  rw [marshalRules_def]
  unfold topUnmarshalRules
  dsimp only
  rw [← marshalRules_def, unmarshalRules_marshalRules]

theorem rt_items_ne_null (p : PropertyRules) :
    (∀ it ∈ (rt p).criteria, it.options ≠ some .null) ∧
    (∀ it ∈ (rt p).behaviors, it.options ≠ some .null) := by
  constructor
  · intro it hit
    obtain ⟨it0, -, rfl⟩ := List.mem_map.mp hit
    exact readRaw_ne_some_null it0.options
  · intro it hit
    obtain ⟨it0, -, rfl⟩ := List.mem_map.mp hit
    exact readRaw_ne_some_null it0.options

/-- The differ's tree normalisation (clean copy through a JSON round-trip)
is strictly idempotent. -/
theorem copyAndCleanRules_idem (p : PropertyRules) :
    copyAndCleanRules (copyAndCleanRules p) = copyAndCleanRules p := by
  rw [copyAndCleanRules_eq, copyAndCleanRules_eq]
  obtain ⟨h1, h2⟩ := rt_items_ne_null p
  rw [rt_cleanRules (rt p) h1 h2]
  exact cleanRules_idem_of_decoded (sizeOf (marshalRules p)) (marshalRules p) (rt p)
    le_rfl (unmarshalRules_marshalRules p)

/-! ### Sorted-association extensionality for the map normal form -/

theorem getField_nmFields (l : List (String × Json)) (k : String)
    (hn : (l.map Prod.fst).Nodup) :
    getField (nmFields l) k = (getField l k).bind nmValue := by
  induction l with
  | nil => rfl
  | cons kv l ih =>
    rcases kv with ⟨k0, v0⟩
    have hn' : (l.map Prod.fst).Nodup := (List.nodup_cons.mp hn).2
    have hk0 : k0 ∉ l.map Prod.fst := (List.nodup_cons.mp hn).1
    rw [nmFields]
    cases hv : nmValue v0 with
    | none =>
      rw [ih hn', getField_cons2]
      by_cases he : k0 = k
      · subst he
        cases hgf : getField l k0 with
        | none => simp [Option.or, hv]
        | some u =>
          exact absurd ((getField_isSome_iff l k0).mp (by simp [hgf])) hk0
      · cases hgf : getField l k with
        | none => simp [Option.or, he]
        | some u => cases hnm : nmValue u <;> simp [Option.or, he, hnm]
    | some w =>
      rw [getField_cons2, getField_cons2, ih hn']
      by_cases he : k0 = k
      · subst he
        cases hgf : getField l k0 with
        | none => simp [Option.or, hv]
        | some u =>
          exact absurd ((getField_isSome_iff l k0).mp (by simp [hgf])) hk0
      · cases hgf : getField l k with
        | none => simp [Option.or, he]
        | some u => cases hnm : nmValue u <;> simp [Option.or, he, hnm]

theorem nmFields_keys_sublist (l : List (String × Json)) :
    List.Sublist ((nmFields l).map Prod.fst) (l.map Prod.fst) := by
  induction l with
  | nil => simp [nmFields]
  | cons kv l ih =>
    rcases kv with ⟨k0, v0⟩
    rw [nmFields]
    cases nmValue v0 with
    | none => exact ih.trans (List.sublist_cons_self _ _)
    | some w => exact ih.cons₂ _

theorem nmFields_keys_nodup (l : List (String × Json))
    (hn : (l.map Prod.fst).Nodup) : ((nmFields l).map Prod.fst).Nodup :=
  hn.sublist (nmFields_keys_sublist l)

theorem nmFields_pairwise (l : List (String × Json))
    (hs : List.Pairwise keyLE l) : List.Pairwise keyLE (nmFields l) := by
  induction l with
  | nil => simp [nmFields]
  | cons kv l ih =>
    rcases kv with ⟨k0, v0⟩
    obtain ⟨hhead, htail⟩ := List.pairwise_cons.mp hs
    rw [nmFields]
    cases nmValue v0 with
    | none => exact ih htail
    | some w =>
      refine List.pairwise_cons.mpr ⟨?_, ih htail⟩
      intro kv' hkv'
      have hkmem : kv'.1 ∈ l.map Prod.fst := by
        have : kv'.1 ∈ (nmFields l).map Prod.fst := List.mem_map_of_mem Prod.fst hkv'
        exact (nmFields_keys_sublist l).subset this
      obtain ⟨kv'', hkv'', hkeq⟩ := List.mem_map.mp hkmem
      have := hhead kv'' hkv''
      unfold keyLE at this ⊢
      rw [hkeq] at this
      exact this

theorem assoc_ext : ∀ (fs gs : List (String × Json)),
    (fs.map Prod.fst).Nodup → (gs.map Prod.fst).Nodup →
    List.Pairwise keyLE fs → List.Pairwise keyLE gs →
    fs.Perm gs → fs = gs := by
  intro fs
  induction fs with
  | nil =>
    intro gs _ _ _ _ hp
    exact List.Perm.nil_eq hp
  | cons a fs' ih =>
    intro gs hn1 hn2 hs1 hs2 hp
    cases gs with
    | nil => simpa using hp.length_eq
    | cons b gs' =>
      by_cases hab : a = b
      · subst hab
        have hp' := hp.cons_inv
        rw [List.map_cons] at hn1 hn2
        rw [ih gs' (List.nodup_cons.mp hn1).2 (List.nodup_cons.mp hn2).2
          (List.pairwise_cons.mp hs1).2 (List.pairwise_cons.mp hs2).2 hp']
      · have ha : a ∈ b :: gs' := hp.mem_iff.mp (List.mem_cons_self a fs')
        have hb : b ∈ a :: fs' := hp.mem_iff.mpr (List.mem_cons_self b gs')
        have ha' : a ∈ gs' := by
          rcases List.mem_cons.mp ha with h | h
          · exact absurd h hab
          · exact h
        have hb' : b ∈ fs' := by
          rcases List.mem_cons.mp hb with h | h
          · exact absurd h.symm hab
          · exact h
        have h1 : keyLE a b := List.rel_of_pairwise_cons hs1 hb'
        have h2 : keyLE b a := List.rel_of_pairwise_cons hs2 ha'
        have hkey : a.1 = b.1 := String.ext (le_antisymm h1 h2)
        have hmem : a.1 ∈ gs'.map Prod.fst := List.mem_map_of_mem Prod.fst ha'
        rw [hkey] at hmem
        rw [List.map_cons] at hn2
        exact absurd hmem (List.nodup_cons.mp hn2).1

theorem assoc_ext_getField (fs gs : List (String × Json))
    (hn1 : (fs.map Prod.fst).Nodup) (hn2 : (gs.map Prod.fst).Nodup)
    (hs1 : List.Pairwise keyLE fs) (hs2 : List.Pairwise keyLE gs)
    (h : ∀ k, getField fs k = getField gs k) : fs = gs := by
  have hnd1 : fs.Nodup := hn1.of_map
  have hnd2 : gs.Nodup := hn2.of_map
  have hperm : fs.Perm gs := by
    rw [List.perm_ext_iff_of_nodup hnd1 hnd2]
    intro a
    rcases a with ⟨k, v⟩
    rw [← getField_eq_some_iff fs k v hn1, ← getField_eq_some_iff gs k v hn2, h k]
  exact assoc_ext fs gs hn1 hn2 hs1 hs2 hperm

theorem canonFields_keys_nodup (fs : List (String × Json)) :
    ((canonFields fs).map Prod.fst).Nodup := by
  unfold canonFields sortByKey
  exact ((List.perm_insertionSort keyLE _).map Prod.fst).nodup_iff.mpr
    (lastWins_keys_nodup _)

theorem canonFields_pairwise (fs : List (String × Json)) :
    List.Pairwise keyLE (canonFields fs) := by
  unfold canonFields sortByKey
  exact List.sorted_insertionSort keyLE _

theorem nmFields_congr (l m : List (String × Json))
    (hn1 : (l.map Prod.fst).Nodup) (hn2 : (m.map Prod.fst).Nodup)
    (hs1 : List.Pairwise keyLE l) (hs2 : List.Pairwise keyLE m)
    (h : ∀ k, (getField l k).bind nmValue = (getField m k).bind nmValue) :
    nmFields l = nmFields m :=
  assoc_ext_getField _ _ (nmFields_keys_nodup l hn1) (nmFields_keys_nodup m hn2)
    (nmFields_pairwise l hs1) (nmFields_pairwise m hs2)
    (fun k => by rw [getField_nmFields l k hn1, getField_nmFields m k hn2, h k])

/-- The per-key content seen by the differ at one object level: canonicalise
the value, then run the empty-value sweep on it. -/
def fNorm (o : Option Json) : Option Json := (o.map canonJson).bind nmValue

/-- Two field lists whose per-key normal content agrees have the same
canon-plus-sweep image. -/
theorem nmCanonFields_ext (fs gs : List (String × Json))
    (h : ∀ k, fNorm (getField fs k) = fNorm (getField gs k)) :
    nmFields (canonFields fs) = nmFields (canonFields gs) :=
  nmFields_congr _ _ (canonFields_keys_nodup fs) (canonFields_keys_nodup gs)
    (canonFields_pairwise fs) (canonFields_pairwise gs)
    (fun k => by
      rw [getField_canonFields, getField_canonFields]
      exact h k)

theorem NK_obj (fs : List (String × Json)) :
    normalizeMapForComparison (canonJson (.obj fs)) =
      .obj (nmFields (canonFields fs)) := by
  rw [canonJson_obj]
  rfl

/-! ### Element-level normal forms -/

/-- The per-element normalisation of `nmElems`: map-valued array elements
get the field sweep, all others are untouched. -/
def elemNm : Json → Json
  | .obj g => .obj (nmFields g)
  | .null => .null
  | .bool b => .bool b
  | .num n => .num n
  | .str s => .str s
  | .arr xs => .arr xs

theorem nmElems_eq_map (l : List Json) : nmElems l = l.map elemNm := by
  induction l with
  | nil => simp [nmElems]
  | cons x xs ih => cases x <;> simp [nmElems, elemNm, ih]

theorem elemNm_K_obj (fs : List (String × Json)) :
    elemNm (canonJson (.obj fs)) = .obj (nmFields (canonFields fs)) := by
  rw [canonJson_obj]
  rfl

theorem fNorm_map_canon (o : Option Json) : fNorm (o.map canonJson) = fNorm o := by
  cases o with
  | none => rfl
  | some v => simp [fNorm, canonJson_idem]

theorem fNorm_arr (xs : List Json) :
    fNorm (some (.arr xs)) =
      if xs = [] then none
      else some (.arr (xs.map (fun x => elemNm (canonJson x)))) := by
  simp only [fNorm, Option.map_some', Option.some_bind, canonJson_arr, nmValue,
    nmElems_eq_map, List.map_map]
  by_cases h : xs = [] <;> simp [h]

mutual

theorem isCanon_nmValue : ∀ v w, IsCanon v → nmValue v = some w → IsCanon w
  | .obj g, w, hc, h => by
    by_cases hg : nmFields g = []
    · simp [nmValue, hg] at h
    · simp only [nmValue, hg, if_neg, ite_false] at h
      have hw : w = .obj (nmFields g) := by
        simp at h
        exact h.symm
      subst hw
      cases hc with
      | obj _ hvals hnodup hsorted =>
        exact .obj _ (fun kv hkv => isCanon_nmFields g hvals kv hkv)
          (nmFields_keys_nodup g hnodup) (nmFields_pairwise g hsorted)
  | .arr xs, w, hc, h => by
    by_cases hx : xs = []
    · simp [nmValue, hx] at h
    · simp only [nmValue, hx, if_neg, ite_false] at h
      have hw : w = .arr (nmElems xs) := by
        simp at h
        exact h.symm
      subst hw
      cases hc with
      | arr _ hvals =>
        exact .arr _ (fun y hy => isCanon_nmElems xs hvals y hy)
  | .str s, w, hc, h => by
    by_cases hs : s = ""
    · simp [nmValue, hs] at h
    · simp only [nmValue, hs, if_neg, ite_false] at h
      have hw : w = .str s := by
        simp at h
        exact h.symm
      subst hw
      exact .str s
  | .null, w, hc, h => by simp [nmValue] at h
  | .bool b, w, hc, h => by
    simp only [nmValue, Option.some.injEq] at h
    subst h
    exact .bool b
  | .num n, w, hc, h => by
    simp only [nmValue, Option.some.injEq] at h
    subst h
    exact .num n

theorem isCanon_nmFields : ∀ g, (∀ kv ∈ g, IsCanon kv.2) →
    ∀ kv ∈ nmFields g, IsCanon kv.2
  | [], _, kv, hkv => by simp [nmFields] at hkv
  | (k0, v0) :: rest, hvals, kv, hkv => by
    rw [nmFields] at hkv
    cases hv : nmValue v0 with
    | none =>
      rw [hv] at hkv
      exact isCanon_nmFields rest (fun kv' hkv' => hvals kv' (by simp [hkv'])) kv hkv
    | some w =>
      rw [hv] at hkv
      rcases List.mem_cons.mp hkv with hkv | hkv
      · subst hkv
        exact isCanon_nmValue v0 w (hvals (k0, v0) (by simp)) hv
      · exact isCanon_nmFields rest (fun kv' hkv' => hvals kv' (by simp [hkv'])) kv hkv

theorem isCanon_nmElems : ∀ xs, (∀ x ∈ xs, IsCanon x) → ∀ y ∈ nmElems xs, IsCanon y
  | [], _, y, hy => by simp [nmElems] at hy
  | x :: xs, hvals, y, hy => by
    rw [nmElems_eq_map, List.map_cons] at hy
    rcases List.mem_cons.mp hy with hy | hy
    · have hcx : IsCanon x := hvals x (by simp)
      subst hy
      cases x with
      | obj g =>
        cases hcx with
        | obj _ hv2 hnodup hsorted =>
          exact .obj _ (fun kv hkv => isCanon_nmFields g hv2 kv hkv)
            (nmFields_keys_nodup g hnodup) (nmFields_pairwise g hsorted)
      | null => exact .null
      | bool b => exact .bool b
      | num n => exact .num n
      | str s => exact .str s
      | arr ys => exact hcx
    · rw [← nmElems_eq_map] at hy
      exact isCanon_nmElems xs (fun x' hx' => hvals x' (by simp [hx'])) y hy

end

theorem canonFields_idem (fs : List (String × Json)) :
    canonFields (canonFields fs) = canonFields fs := by
  have h := canonJson_idem (.obj fs)
  rw [canonJson_obj, canonJson_obj] at h
  exact Json.obj.inj h

theorem canonJson_obj_nil : canonJson (.obj []) = .obj [] := by
  rw [canonJson_obj]
  rfl

theorem lastWins_ne_nil (fs : List (String × Json)) (h : fs ≠ []) :
    lastWins fs ≠ [] := by
  cases fs with
  | nil => exact absurd rfl h
  | cons kv fs =>
    rw [lastWins_cons]
    by_cases hmem : (lastWins fs).any (fun kv' => kv'.1 == kv.1) = true
    · rw [if_pos hmem]
      obtain ⟨kv', hkv', -⟩ := List.any_eq_true.mp hmem
      exact List.ne_nil_of_mem hkv'
    · rw [if_neg hmem]
      simp
theorem canonFields_ne_nil (fs : List (String × Json)) (h : fs ≠ []) :
    canonFields fs ≠ [] := by
  unfold canonFields sortByKey
  intro hc
  have hlen := (List.perm_insertionSort keyLE
    (lastWins (fs.map (fun kv => (kv.1, canonJson kv.2))))).length_eq
  rw [hc] at hlen
  have : lastWins (fs.map (fun kv => (kv.1, canonJson kv.2))) = [] :=
    List.length_eq_zero.mp hlen.symm
  exact lastWins_ne_nil _ (by simpa using h) this

theorem fNorm_of_fNorm (o : Option Json) (w : Json) (h : fNorm o = some w) :
    fNorm (some w) = some w := by
  cases o with
  | none => simp [fNorm] at h
  | some v =>
    have h' : nmValue (canonJson v) = some w := h
    have hK : canonJson w = w :=
      canonJson_of_isCanon w (isCanon_nmValue (canonJson v) w (isCanon_canonJson v) h')
    have hnm : nmValue w = some w := nmValue_idem (canonJson v) w h'
    show (some (canonJson w)).bind nmValue = some w
    rw [hK]
    simpa using hnm

theorem fNorm_cleanOptionsRoot_canon (o : Option Json) :
    fNorm (cleanOptionsRoot (o.map canonJson)) = fNorm (cleanOptionsRoot o) := by
  cases o with
  | none => rfl
  | some v =>
    cases v with
    | null => rw [show (some Json.null).map canonJson = some Json.null by
        simp [canonJson_null]]
    | obj fs =>
      cases fs with
      | nil =>
        rw [show (some (Json.obj [])).map canonJson = some (Json.obj []) by
          simp [canonJson_obj_nil]]
      | cons kv fs =>
        have hO : cleanOptionsRoot (some (Json.obj (kv :: fs))) =
            some (Json.obj (kv :: fs)) := rfl
        have hK : (some (Json.obj (kv :: fs))).map canonJson =
            some (Json.obj (canonFields (kv :: fs))) := by simp [canonJson_obj]
        rw [hK]
        have hne : canonFields (kv :: fs) ≠ [] := canonFields_ne_nil _ (by simp)
        have hO2 : cleanOptionsRoot (some (Json.obj (canonFields (kv :: fs)))) =
            some (Json.obj (canonFields (kv :: fs))) := by
          cases hcf : canonFields (kv :: fs) with
          | nil => exact absurd hcf hne
          | cons a l => rfl
        rw [hO2, hO, ← canonJson_obj]
        have := fNorm_map_canon (some (Json.obj (kv :: fs)))
        simpa using this
    | bool b =>
      have := fNorm_map_canon (some (Json.bool b))
      simpa [canonJson_boolc] using this
    | num n =>
      have := fNorm_map_canon (some (Json.num n))
      simpa [canonJson_numc] using this
    | str s =>
      have := fNorm_map_canon (some (Json.str s))
      simpa [canonJson_strc] using this
    | arr xs =>
      have := fNorm_map_canon (some (Json.arr xs))
      simpa [canonJson_arr] using this

theorem fNorm_cleanCustomOverride_canon (o : Option Json) :
    fNorm (cleanCustomOverride (o.map canonJson)) = fNorm (cleanCustomOverride o) := by
  cases o with
  | none => rfl
  | some v =>
    cases v with
    | null => rw [show (some Json.null).map canonJson = some Json.null by
        simp [canonJson_null]]
    | obj fs =>
      have := fNorm_map_canon (some (Json.obj fs))
      simpa [canonJson_obj] using this
    | bool b =>
      have := fNorm_map_canon (some (Json.bool b))
      simpa [canonJson_boolc] using this
    | num n =>
      have := fNorm_map_canon (some (Json.num n))
      simpa [canonJson_numc] using this
    | str s =>
      have := fNorm_map_canon (some (Json.str s))
      simpa [canonJson_strc] using this
    | arr xs =>
      have := fNorm_map_canon (some (Json.arr xs))
      simpa [canonJson_arr] using this

theorem fNorm_cleanItemOptions_canon (o : Option Json) (ho : o ≠ some .null) :
    fNorm (cleanItemOptions (o.map canonJson)) = fNorm (cleanItemOptions o) := by
  cases o with
  | none => rfl
  | some v =>
    cases v with
    | null => exact absurd rfl ho
    | obj fs =>
      rw [show (some (Json.obj fs)).map canonJson =
          some (Json.obj (canonFields fs)) by simp [canonJson_obj]]
      rw [cleanItemOptions_obj, cleanItemOptions_obj, canonFields_idem]
    | bool b =>
      have := fNorm_map_canon (some (Json.bool b))
      simpa [canonJson_boolc, cleanItemOptions] using this
    | num n =>
      have := fNorm_map_canon (some (Json.num n))
      simpa [canonJson_numc, cleanItemOptions] using this
    | str s =>
      have := fNorm_map_canon (some (Json.str s))
      simpa [canonJson_strc, cleanItemOptions] using this
    | arr xs =>
      have := fNorm_map_canon (some (Json.arr xs))
      simpa [canonJson_arr, cleanItemOptions] using this

theorem gfi_other (it : RuleItem) (k : String)
    (h1 : ¬ "name" = k) (h2 : ¬ "uuid" = k) (h3 : ¬ "options" = k) :
    getField (marshalItemFields it) k = none := by
  unfold marshalItemFields
  cases it.options <;>
    simp [getField_append, getField_ite, getField_cons2, getField_nil,
      Option.or_none, Option.none_or, h1, h2, h3]

theorem gfr_other (p : PropertyRules) (k : String)
    (h1 : ¬ "name" = k) (h2 : ¬ "criteriaMustSatisfy" = k) (h3 : ¬ "comments" = k)
    (h4 : ¬ "uuid" = k) (h5 : ¬ "criteria" = k) (h6 : ¬ "behaviors" = k)
    (h7 : ¬ "variables" = k) (h8 : ¬ "options" = k) (h9 : ¬ "customOverride" = k)
    (h10 : ¬ "children" = k) :
    getField (marshalRulesFields p) k = none := by
  unfold marshalRulesFields
  cases p.options <;> cases p.customOverride <;>
    simp [getField_append, getField_ite, getField_cons2, getField_nil,
      Option.or_none, Option.none_or, h1, h2, h3, h4, h5, h6, h7, h8, h9, h10]

/-- Two items with keywise-equal normal content have the same canon-swept
image as array elements. -/
theorem elemNm_item_ext (itA itB : RuleItem)
    (h : ∀ k, fNorm (getField (marshalItemFields itA) k) =
              fNorm (getField (marshalItemFields itB) k)) :
    elemNm (canonJson (marshalItem itA)) = elemNm (canonJson (marshalItem itB)) := by
  rw [marshalItem_def, marshalItem_def, elemNm_K_obj, elemNm_K_obj]
  congr 1
  exact nmCanonFields_ext _ _ h

/-- A `katItem`-conjugated clean item has the same element normal form as
the plainly cleaned item. -/
theorem elemNm_cleanCriteria_katItem (it : RuleItem) (ho : it.options ≠ some .null) :
    elemNm (canonJson (marshalItem (cleanCriteriaForComparison (katItem it)))) =
      elemNm (canonJson (marshalItem (cleanCriteriaForComparison it))) := by
  apply elemNm_item_ext
  intro k
  by_cases hk1 : "name" = k
  · subst hk1
    rw [gfi_name, gfi_name]
    simp [cleanCriteriaForComparison, katItem]
  · by_cases hk2 : "uuid" = k
    · subst hk2
      rw [gfi_uuid, gfi_uuid]
      simp [cleanCriteriaForComparison, katItem]
    · by_cases hk3 : "options" = k
      · subst hk3
        rw [gfi_options, gfi_options]
        show fNorm (cleanItemOptions (it.options.map canonJson)) =
          fNorm (cleanItemOptions it.options)
        exact fNorm_cleanItemOptions_canon it.options ho
      · rw [gfi_other _ _ hk1 hk2 hk3, gfi_other _ _ hk1 hk2 hk3]

theorem elemNm_cleanBehavior_katItem (it : RuleItem) (ho : it.options ≠ some .null) :
    elemNm (canonJson (marshalItem (cleanBehaviorForComparison (katItem it)))) =
      elemNm (canonJson (marshalItem (cleanBehaviorForComparison it))) := by
  apply elemNm_item_ext
  intro k
  by_cases hk1 : "name" = k
  · subst hk1
    rw [gfi_name, gfi_name]
    simp [cleanBehaviorForComparison, katItem]
  · by_cases hk2 : "uuid" = k
    · subst hk2
      rw [gfi_uuid, gfi_uuid]
      simp [cleanBehaviorForComparison, katItem]
    · by_cases hk3 : "options" = k
      · subst hk3
        rw [gfi_options, gfi_options]
        show fNorm (cleanItemOptions (it.options.map canonJson)) =
          fNorm (cleanItemOptions it.options)
        exact fNorm_cleanItemOptions_canon it.options ho
      · rw [gfi_other _ _ hk1 hk2 hk3, gfi_other _ _ hk1 hk2 hk3]

theorem canonJson_eq_null (v : Json) (h : canonJson v = .null) : v = .null := by
  cases v with
  | null => rfl
  | obj fs => rw [canonJson_obj] at h; cases h
  | arr xs => rw [canonJson_arr] at h; cases h
  | bool b => rw [canonJson_boolc] at h; cases h
  | num n => rw [canonJson_numc] at h; cases h
  | str s => rw [canonJson_strc] at h; cases h

theorem katItem_options_ne_null (it : RuleItem) (ho : it.options ≠ some .null) :
    (katItem it).options ≠ some .null := by
  intro h
  cases hoo : it.options with
  | none => rw [katItem] at h; rw [hoo] at h; cases h
  | some v =>
    rw [katItem] at h
    rw [hoo] at h
    simp only [Option.map_some', Option.some.injEq] at h
    exact ho (by rw [hoo, canonJson_eq_null v h])

set_option maxHeartbeats 3000000 in
/-- Canonicalising the raw carriers of a decoded tree does not change the
differ normal form of its cleaned marshalling. -/
theorem nm_canon_marshal_clean_kat :
    ∀ (n : Nat) (c : Json) (q : PropertyRules), sizeOf c ≤ n →
      unmarshalRules c = some q →
      normalizeMapForComparison (canonJson (marshalRules
        (cleanRulesForComparison (kat q)))) =
      normalizeMapForComparison (canonJson (marshalRules
        (cleanRulesForComparison q))) := by
  intro n
  induction n with
  | zero =>
    intro c q hle hdec
    cases c <;> simp at hle
  | succ n ih =>
    intro c q hle hdec
    obtain ⟨hcn, hbn⟩ := decoded_items_ne_null c q hdec
    rw [marshalRules_def, marshalRules_def, NK_obj, NK_obj]
    congr 1
    apply nmCanonFields_ext
    intro k
    by_cases hk1 : "name" = k
    · subst hk1
      rw [gfr_name, gfr_name]
      simp [cleanRulesForComparison, kat]
    · by_cases hk2 : "criteriaMustSatisfy" = k
      · subst hk2
        rw [gfr_cms, gfr_cms]
        simp [cleanRulesForComparison, kat]
      · by_cases hk3 : "comments" = k
        · subst hk3
          rw [gfr_comments, gfr_comments]
          simp [cleanRulesForComparison, kat]
        · by_cases hk4 : "uuid" = k
          · subst hk4
            rw [gfr_uuid, gfr_uuid]
            simp [cleanRulesForComparison, kat]
          · by_cases hk5 : "criteria" = k
            · subst hk5
              rw [gfr_criteria, gfr_criteria]
              simp only [cleanRulesForComparison, kat, List.map_map]
              by_cases hE : q.criteria = []
              · simp [hE]
              · rw [if_neg (by simp [hE]), if_neg (by simp [hE]),
                  fNorm_arr, fNorm_arr, if_neg (by simp [hE]), if_neg (by simp [hE])]
                congr 2
                rw [List.map_map, List.map_map]
                apply List.map_congr_left
                intro it hit
                exact elemNm_cleanCriteria_katItem it (hcn it hit)
            · by_cases hk6 : "behaviors" = k
              · subst hk6
                rw [gfr_behaviors, gfr_behaviors]
                simp only [cleanRulesForComparison, kat, List.map_map]
                by_cases hE : q.behaviors = []
                · simp [hE]
                · rw [if_neg (by simp [hE]), if_neg (by simp [hE]),
                    fNorm_arr, fNorm_arr, if_neg (by simp [hE]), if_neg (by simp [hE])]
                  congr 2
                  rw [List.map_map, List.map_map]
                  apply List.map_congr_left
                  intro it hit
                  exact elemNm_cleanBehavior_katItem it (hbn it hit)
              · by_cases hk7 : "variables" = k
                · subst hk7
                  rw [gfr_variables, gfr_variables]
                  simp [cleanRulesForComparison, kat]
                · by_cases hk8 : "options" = k
                  · subst hk8
                    rw [gfr_options, gfr_options]
                    show fNorm (cleanOptionsRoot (q.options.map canonJson)) =
                      fNorm (cleanOptionsRoot q.options)
                    exact fNorm_cleanOptionsRoot_canon q.options
                  · by_cases hk9 : "customOverride" = k
                    · subst hk9
                      rw [gfr_customOverride, gfr_customOverride]
                      show fNorm (cleanCustomOverride (q.customOverride.map canonJson)) =
                        fNorm (cleanCustomOverride q.customOverride)
                      exact fNorm_cleanCustomOverride_canon q.customOverride
                    · by_cases hk10 : "children" = k
                      · subst hk10
                        rw [gfr_children, gfr_children]
                        simp only [cleanRulesForComparison, kat, List.map_map]
                        by_cases hE : q.children = []
                        · simp [hE]
                        · rw [if_neg (by simp [hE]), if_neg (by simp [hE]),
                            fNorm_arr, fNorm_arr,
                            if_neg (by simp [hE]), if_neg (by simp [hE])]
                          congr 2
                          rw [List.map_map, List.map_map]
                          apply List.map_congr_left
                          intro c' hc'
                          show elemNm (canonJson (cleanChildJson (canonJson c'))) =
                            elemNm (canonJson (cleanChildJson c'))
                          cases hU : unmarshalRules c' with
                          | none =>
                            have hU2 : unmarshalRules (canonJson c') = none := by
                              rw [unmarshalRules_canon, hU]
                              rfl
                            have e1 : cleanChildJson (canonJson c') = canonJson c' := by
                              rw [cleanChildJson_eq, hU2]
                            have e2 : cleanChildJson c' = c' := by
                              rw [cleanChildJson_eq, hU]
                            rw [e1, e2, canonJson_idem]
                          | some q' =>
                            have hU2 : unmarshalRules (canonJson c') = some (kat q') := by
                              rw [unmarshalRules_canon, hU]
                              rfl
                            have e1 : cleanChildJson (canonJson c') =
                                marshalRules (cleanRulesForComparison (kat q')) := by
                              rw [cleanChildJson_eq, hU2]
                            have e2 : cleanChildJson c' =
                                marshalRules (cleanRulesForComparison q') := by
                              rw [cleanChildJson_eq, hU]
                            rw [e1, e2]
                            have hsz : sizeOf c' ≤ n := by
                              have := sizeOf_child_lt c q c' hdec hc'
                              omega
                            have hIH := ih c' q' hsz hU
                            rw [marshalRules_def, marshalRules_def, NK_obj, NK_obj] at hIH
                            rw [marshalRules_def, marshalRules_def, elemNm_K_obj,
                              elemNm_K_obj]
                            exact hIH
                      · rw [gfr_other _ _ hk1 hk2 hk3 hk4 hk5 hk6 hk7 hk8 hk9 hk10,
                          gfr_other _ _ hk1 hk2 hk3 hk4 hk5 hk6 hk7 hk8 hk9 hk10]
